import Mathlib

/-
Verification of the passive peer-address manager (CPAddrMan / CPAddr,
src/paddrman.h and src/paddrman.cpp).

The C++ containers are shallowly embedded as lists:
  * std::unordered_map<std::string, CPAddr>  becomes an association list
    over canonical keys (the CService::ToString form, host and port);
  * std::unordered_set<std::string>          becomes a list of keys;
  * std::vector<std::string>                 becomes a list of keys.
Map subscript reads (which default-insert on a missing key), assertion
failures (modelled as Option.none) and the exact mutation order of the
source are preserved.  CNetAddr, CService and CAddress live outside this
repository (netaddress.h, protocol.h); they are modelled by their identity
(host number, port), service bits, timestamp, and the IsRoutable attribute
of the network identity, which is all the manager code reads from them.
-/

namespace PAddrMan

/-- Network-level identity of a peer (external CNetAddr): the address bytes
are abstracted into a host number; IsRoutable is an attribute of the
address, carried alongside it. -/
structure CNetAddrM where
  host : Nat
  routable : Bool
deriving DecidableEq

/-- External CService: a network address together with a port. -/
structure CServiceM where
  net : CNetAddrM
  port : Nat
deriving DecidableEq

/-- Canonical map key, the CService::ToString form: host and port.
Equality of two CService values in the source compares exactly the address
and the port, so it coincides with equality of keys. -/
abbrev Key := Nat × Nat

def CServiceM.toKey (a : CServiceM) : Key := (a.net.host, a.port)

/-- External CAddress: a CService plus service bits and a timestamp. -/
structure CAddressM where
  svc : CServiceM
  nServices : Nat
  nTime : Nat
deriving DecidableEq

def CAddressM.isRoutable (a : CAddressM) : Bool := a.svc.net.routable

/-- CPAddr (paddrman.h lines 26 to 98): a CAddress extended with
reconnection statistics, the discovery source and the vRandom position. -/
structure CPAddrM where
  addr : CAddressM
  nLastSuccess : Int
  nLastTry : Int
  nSuccesses : Int
  nAttempts : Int
  fInReconn : Bool
  source : CNetAddrM
  nRandomPos : Int
deriving DecidableEq

/-- Default-constructed CPAddr (CPAddr() followed by Init(), paddrman.h
lines 68 to 93): zeroed statistics, fInReconn false, nRandomPos -1.  The
CAddress base defaults are external to the repository and modelled as a
zeroed identity. -/
def defaultCPAddr : CPAddrM :=
  { addr := { svc := { net := { host := 0, routable := false }, port := 0 }, nServices := 0, nTime := 0 }
    nLastSuccess := 0
    nLastTry := 0
    nSuccesses := 0
    nAttempts := 0
    fInReconn := false
    source := { host := 0, routable := false }
    nRandomPos := -1 }

instance : Inhabited CPAddrM := ⟨defaultCPAddr⟩

/-- CPAddr::IsTerrible (paddrman.cpp lines 8 to 12): the placeholder policy
of the source, always false. -/
def CPAddrM.IsTerrible (_a : CPAddrM) (_nNow : Int) : Bool := false

/-! ### The containers -/

/-- The address store: association list for the unordered_map. -/
abbrev AMap := List (Key × CPAddrM)

/-- Set of keys: list for the unordered_set. -/
abbrev KSet := List Key

def mlookup : AMap → Key → Option CPAddrM
  | [], _ => none
  | (k2, v) :: t, k => if k2 = k then some v else mlookup t k

def mcontains (m : AMap) (k : Key) : Bool := (mlookup m k).isSome

/-- Map subscript assignment: replace the value at an existing key,
otherwise insert. -/
def mset : AMap → Key → CPAddrM → AMap
  | [], k, v => [(k, v)]
  | (k2, v2) :: t, k, v => if k2 = k then (k2, v) :: t else (k2, v2) :: mset t k v

/-- unordered_map::erase by key. -/
def merase : AMap → Key → AMap
  | [], _ => []
  | (k2, v2) :: t, k => if k2 = k then t else (k2, v2) :: merase t k

/-- Map subscript read: the stored value, default-inserting a
default-constructed CPAddr when the key is absent. -/
def msubGet (m : AMap) (k : Key) : CPAddrM × AMap :=
  match mlookup m k with
  | some v => (v, m)
  | none => (defaultCPAddr, mset m k defaultCPAddr)

/-- unordered_set::insert. -/
def sinsert (s : KSet) (k : Key) : KSet := if k ∈ s then s else k :: s

/-- unordered_set::erase. -/
def serase : KSet → Key → KSet
  | [], _ => []
  | k2 :: t, k => if k2 = k then t else k2 :: serase t k

/-- List indexing for vRandom. -/
def nth : List Key → Nat → Option Key
  | [], _ => none
  | a :: _, 0 => some a
  | _ :: t, n + 1 => nth t n

/-- vRandom slot assignment. -/
def setNth : List Key → Nat → Key → List Key
  | [], _, _ => []
  | _ :: t, 0, b => b :: t
  | a :: t, n + 1, b => a :: setNth t n b

/-- vector::pop_back. -/
def popBack : List Key → List Key
  | [] => []
  | [_] => []
  | a :: b :: t => a :: popBack (b :: t)

/-! ### The manager state -/

/-- The four containers of CPAddrMan (paddrman.h lines 120 to 130). -/
structure AState where
  addrMap : AMap
  reconnSet : KSet
  newSet : KSet
  vRandom : List Key
deriving DecidableEq

/-- A just-constructed manager: the constructor calls Clear() on
empty members, leaving every container empty. -/
def emptyState : AState := ⟨[], [], [], []⟩

def sizeM (s : AState) : Nat := s.addrMap.length

/-! ### Protected operations (paddrman.cpp) -/

/-- CPAddrMan::Find (paddrman.cpp lines 14 to 20). -/
def Find (s : AState) (k : Key) : Option CPAddrM := mlookup s.addrMap k

/-- Conversion of the int nRandomPos to the unsigned parameter of
SwapRandom.  On states satisfying I1 the position is a valid index and the
conversion is the identity; the source-level wrap of a negative int is not
distinguished here because no invariant-satisfying state produces one. -/
def usize (i : Int) : Nat := i.toNat

/-- Subscript assignment to the nRandomPos field of addrMap[k]
(default-inserting when k is absent, as operator[] does). -/
def subSetPos (m : AMap) (k : Key) (p : Int) : AMap :=
  match mlookup m k with
  | some v => mset m k { v with nRandomPos := p }
  | none => mset m k { defaultCPAddr with nRandomPos := p }

/-- Body of CPAddrMan::SwapRandom past its guards (paddrman.cpp lines
55 to 62): read the two keys, update both entries through the map
subscript, then exchange the two vRandom slots. -/
def swapCore (s : AState) (p1 p2 : Nat) : AState :=
  match nth s.vRandom p1, nth s.vRandom p2 with
  | some a1, some a2 =>
    { s with
      addrMap := subSetPos (subSetPos s.addrMap a1 (p2 : Int)) a2 (p1 : Int)
      vRandom := setNth (setNth s.vRandom p1 a2) p2 a1 }
  | _, _ => s

/-- CPAddrMan::SwapRandom (paddrman.cpp lines 48 to 63): no-op on equal
positions, and an assertion (modelled as none) when either position is out
of range. -/
def SwapRandom (s : AState) (p1 p2 : Nat) : Option AState :=
  if p1 = p2 then some s
  else if p1 < s.vRandom.length ∧ p2 < s.vRandom.length then some (swapCore s p1 p2)
  else none

/-- CPAddrMan::Create (paddrman.cpp lines 22 to 30): store a fresh
CPAddr under the key, then set its nRandomPos through the subscript,
append the key to vRandom and insert it into the new set.  The returned
entry mirrors the returned reference. -/
def Create (s : AState) (addr : CAddressM) (src : CNetAddrM) : CPAddrM × AState :=
  let key := addr.svc.toKey
  let base : CPAddrM :=
    { addr := addr
      nLastSuccess := 0
      nLastTry := 0
      nSuccesses := 0
      nAttempts := 0
      fInReconn := false
      source := src
      nRandomPos := -1 }
  let withPos : CPAddrM := { base with nRandomPos := (s.vRandom.length : Int) }
  let m1 := mset s.addrMap key base
  let m2 := mset m1 key withPos
  (withPos,
   { s with
     addrMap := m2
     vRandom := s.vRandom ++ [key]
     newSet := sinsert s.newSet key })

/-- CPAddrMan::Delete (paddrman.cpp lines 32 to 46): assert the key is
present (none on failure), swap the target slot with the last slot, pop
the vector, erase the map entry, then erase the key from the set chosen by
the fInReconn flag.  The source reads the erased entry through a reference
taken before the erase; the model captures those field values at the
lookup. -/
def Delete (s : AState) (k : Key) : Option AState :=
  match mlookup s.addrMap k with
  | none => none
  | some info =>
    match SwapRandom s (usize info.nRandomPos) (s.vRandom.length - 1) with
    | none => none
    | some s1 =>
      let kk := info.addr.svc.toKey
      some { s1 with
             vRandom := popBack s1.vRandom
             addrMap := merase s1.addrMap kk
             reconnSet := if info.fInReconn then serase s1.reconnSet kk else s1.reconnSet
             newSet := if info.fInReconn then s1.newSet else serase s1.newSet kk }

/-- CPAddrMan::Add_ (paddrman.cpp lines 65 to 103).  The comparison of the
incoming CAddress with the CNetAddr source resolves to the CNetAddr
equality of the source code, which compares only the network identity.
GetAdjustedTime() is the caller-supplied clock value now. -/
def Add_ (s : AState) (addr : CAddressM) (src : CNetAddrM) (nTimePenalty : Int) (now : Int) :
    Bool × AState :=
  if addr.isRoutable = false then (false, s)
  else
    let key := addr.svc.toKey
    let pen : Int := if addr.svc.net.host = src.host then 0 else nTimePenalty
    match Find s key with
    | some info =>
      let nUpdateInterval : Int :=
        if now - (addr.nTime : Int) < 24 * 60 * 60 then 60 * 60 else 24 * 60 * 60
      let info1 :=
        if addr.nTime ≠ 0 ∧ (info.addr.nTime = 0 ∨
            (info.addr.nTime : Int) < (addr.nTime : Int) - nUpdateInterval - pen)
        then { info with addr := { info.addr with nTime := ((addr.nTime : Int) - pen).toNat } }
        else info
      let mergedAddr := { info1.addr with nServices := Nat.lor info1.addr.nServices addr.nServices }
      let info2 := { info1 with addr := mergedAddr }
      (false, { s with addrMap := mset s.addrMap key info2 })
    | none =>
      let created := Create s addr src
      let fresh := created.1
      let s1 := created.2
      let adjusted : CPAddrM :=
        { fresh with addr := { fresh.addr with nTime := ((fresh.addr.nTime : Int) - pen).toNat } }
      (true, { s1 with addrMap := mset s1.addrMap key adjusted })

/-- CPAddrMan::Good_ (paddrman.cpp lines 105 to 135). -/
def Good_ (s : AState) (addr : CServiceM) (nTime : Int) : AState :=
  match Find s addr.toKey with
  | none => s
  | some info =>
    if info.addr.svc.toKey ≠ addr.toKey then s
    else
      let info1 := { info with
        nLastSuccess := nTime
        nLastTry := nTime
        nAttempts := 0
        nSuccesses := info.nSuccesses + 1 }
      if info1.fInReconn then { s with addrMap := mset s.addrMap addr.toKey info1 }
      else
        let info2 := { info1 with fInReconn := true }
        { s with
          addrMap := mset s.addrMap addr.toKey info2
          reconnSet := sinsert s.reconnSet info2.addr.svc.toKey
          newSet := serase s.newSet info2.addr.svc.toKey }

/-- CPAddrMan::Attempt_ (paddrman.cpp lines 137 to 159); the
eviction-on-limit path of the source is commented out and absent. -/
def Attempt_ (s : AState) (addr : CServiceM) (fCountFailure : Bool) (nTime : Int) : AState :=
  match Find s addr.toKey with
  | none => s
  | some info =>
    if info.addr.svc.toKey ≠ addr.toKey then s
    else
      let info1 := { info with
        nLastTry := nTime
        nAttempts := if fCountFailure then info.nAttempts + 1 else info.nAttempts }
      { s with addrMap := mset s.addrMap addr.toKey info1 }

/-- CPAddrMan::Connected_ (paddrman.cpp lines 182 to 200). -/
def Connected_ (s : AState) (addr : CServiceM) (nTime : Int) : AState :=
  match Find s addr.toKey with
  | none => s
  | some info =>
    if info.addr.svc.toKey ≠ addr.toKey then s
    else
      let nUpdateInterval : Int := 20 * 60
      let touched := { info with addr := { info.addr with nTime := nTime.toNat } }
      if nUpdateInterval < nTime - (info.addr.nTime : Int)
      then { s with addrMap := mset s.addrMap addr.toKey touched }
      else s

/-- CPAddrMan::SetServices_ (paddrman.cpp lines 202 to 218). -/
def SetServices_ (s : AState) (addr : CServiceM) (nServices : Nat) : AState :=
  match Find s addr.toKey with
  | none => s
  | some info =>
    if info.addr.svc.toKey ≠ addr.toKey then s
    else
      let updated := { info with addr := { info.addr with nServices := nServices } }
      { s with addrMap := mset s.addrMap addr.toKey updated }

def ADDRMAN_GETADDR_MAX_PCT : Nat := 23

def ADDRMAN_GETADDR_MAX : Nat := 2500

/-- Modelled from the spec: CPAddrMan::RandomInt wraps GetRandInt
(random.h, outside this repository); the spec describes the Rng
collaborator as a uniform integer generator on the interval from 0 to
nMax exclusive.  An arbitrary generator output r is reduced into that
range. -/
def RandomIntM (r : Nat) (nMax : Nat) : Nat := r % nMax

/-- Loop of CPAddrMan::GetAddr_ (paddrman.cpp lines 168 to 179), with an
explicit fuel equal to the vector length, which the loop body never
changes.  rnd n is the generator output consumed at step n. -/
def getAddrGo (rnd : Nat → Nat) (nNodes : Nat) (now : Int) :
    Nat → Nat → AState → List CAddressM → List CAddressM × AState
  | 0, _, s, acc => (acc, s)
  | fuel + 1, n, s, acc =>
    if n < s.vRandom.length then
      if nNodes ≤ acc.length then (acc, s)
      else
        let nRndPos := RandomIntM (rnd n) (s.vRandom.length - n) + n
        match SwapRandom s n nRndPos with
        | none => (acc, s)
        | some s1 =>
          match nth s1.vRandom n with
          | none => (acc, s1)
          | some key =>
            let got := msubGet s1.addrMap key
            let ai := got.1
            let s2 := { s1 with addrMap := got.2 }
            if ai.IsTerrible now then getAddrGo rnd nNodes now fuel (n + 1) s2 acc
            else getAddrGo rnd nNodes now fuel (n + 1) s2 (acc ++ [ai.addr])
    else (acc, s)

/-- CPAddrMan::GetAddr_ (paddrman.cpp lines 161 to 180). -/
def GetAddr_ (s : AState) (rnd : Nat → Nat) (now : Int) : List CAddressM × AState :=
  let nNodes0 := ADDRMAN_GETADDR_MAX_PCT * s.vRandom.length / 100
  let nNodes := if ADDRMAN_GETADDR_MAX < nNodes0 then ADDRMAN_GETADDR_MAX else nNodes0
  getAddrGo rnd nNodes now s.vRandom.length 0 s []

/-! ### Public operations (paddrman.h) -/

/-- Loop of CPAddrMan::GetReconns (paddrman.h lines 286 to 293): subscript
read (default-inserting when the key is absent), skip on the double check,
copy the entry. -/
def getReconnsGo : KSet → AState → List CPAddrM → List CPAddrM × AState
  | [], s, acc => (acc, s)
  | k :: rest, s, acc =>
    let got := msubGet s.addrMap k
    let s2 := { s with addrMap := got.2 }
    if got.1.fInReconn = false then getReconnsGo rest s2 acc
    else getReconnsGo rest s2 (acc ++ [got.1])

/-- CPAddrMan::GetReconns (paddrman.h lines 281 to 296). -/
def GetReconns (s : AState) : List CPAddrM × AState := getReconnsGo s.reconnSet s []

/-- Loop of CPAddrMan::GetNew (paddrman.h lines 304 to 311). -/
def getNewGo : KSet → AState → List CPAddrM → List CPAddrM × AState
  | [], s, acc => (acc, s)
  | k :: rest, s, acc =>
    let got := msubGet s.addrMap k
    let s2 := { s with addrMap := got.2 }
    if got.1.fInReconn = true then getNewGo rest s2 acc
    else getNewGo rest s2 (acc ++ [got.1])

/-- CPAddrMan::GetNew (paddrman.h lines 299 to 314). -/
def GetNew (s : AState) : List CPAddrM × AState := getNewGo s.newSet s []

/-- CPAddrMan::Clear (paddrman.h lines 242 to 248): the source clears
vRandom, reconnSet and addrMap; the newSet member is not cleared there. -/
def Clear (s : AState) : AState :=
  { s with vRandom := [], reconnSet := [], addrMap := [] }

/-- Loop of CPAddrMan::MakeContainers (paddrman.h lines 188 to 198):
insert the entry key (its own ToString form) into the set chosen by
fInReconn, set its nRandomPos through the iterator reference, and append
the map key to vRandom. -/
def makeGo : List (Key × CPAddrM) → AState → AState
  | [], s => s
  | (k, a) :: rest, s =>
    let s1 := if a.fInReconn
              then { s with reconnSet := sinsert s.reconnSet a.addr.svc.toKey }
              else { s with newSet := sinsert s.newSet a.addr.svc.toKey }
    let s2 := { s1 with
                addrMap := mset s1.addrMap k { a with nRandomPos := (s1.vRandom.length : Int) }
                vRandom := s1.vRandom ++ [k] }
    makeGo rest s2

/-- CPAddrMan::MakeContainers (paddrman.h lines 184 to 200): clear
reconnSet, then rebuild the containers from the map entries. -/
def MakeContainers (s : AState) : AState := makeGo s.addrMap { s with reconnSet := [] }

/-! ### Serialization (paddrman.h lines 55 to 66 and 169 to 176) -/

/-- Wire image of a CPAddr: the serialized fields in their wire order
(CAddress base, nLastTry, nSuccesses, fInReconn, source, nAttempts,
nLastSuccess); nRandomPos is not serialized. -/
structure SerCPAddr where
  base : CAddressM
  nLastTry : Int
  nSuccesses : Int
  fInReconn : Bool
  source : CNetAddrM
  nAttempts : Int
  nLastSuccess : Int
deriving DecidableEq

def serCPAddr (a : CPAddrM) : SerCPAddr :=
  ⟨a.addr, a.nLastTry, a.nSuccesses, a.fInReconn, a.source, a.nAttempts, a.nLastSuccess⟩

/-- Deserialization of one entry: a default-constructed CPAddr with the
wire fields read back; nRandomPos keeps the Init() value -1. -/
def deserCPAddr (w : SerCPAddr) : CPAddrM :=
  { defaultCPAddr with
    addr := w.base
    nLastTry := w.nLastTry
    nSuccesses := w.nSuccesses
    fInReconn := w.fInReconn
    source := w.source
    nAttempts := w.nAttempts
    nLastSuccess := w.nLastSuccess }

/-- Serialized form of the address map (the manager serializes exactly
addrMap, paddrman.h lines 171 to 176). -/
def serMap (m : AMap) : List (Key × SerCPAddr) := m.map (fun kv => (kv.1, serCPAddr kv.2))

def deserMap (l : List (Key × SerCPAddr)) : AMap := l.map (fun kw => (kw.1, deserCPAddr kw.2))

/-! ### Operation sequences -/

/-- The operations of the facade exercised by the invariant claim. -/
inductive Op where
  | add (addr : CAddressM) (src : CNetAddrM) (pen : Int) (now : Int)
  | good (addr : CServiceM) (t : Int)
  | attempt (addr : CServiceM) (cf : Bool) (t : Int)
  | del (k : Key)
  | getaddr (rnd : Nat → Nat) (now : Int)

def applyOp (op : Op) (s : AState) : Option AState :=
  match op with
  | .add a src p n => some (Add_ s a src p n).2
  | .good a t => some (Good_ s a t)
  | .attempt a c t => some (Attempt_ s a c t)
  | .del k => Delete s k
  | .getaddr r n => some (GetAddr_ s r n).2

def runOps : List Op → AState → Option AState
  | [], s => some s
  | op :: rest, s =>
    match applyOp op s with
    | none => none
    | some s1 => runOps rest s1

/-- The non-deleting update operations of the monotonicity claim. -/
inductive QOp where
  | good (addr : CServiceM) (t : Int)
  | attempt (addr : CServiceM) (cf : Bool) (t : Int)
  | connected (addr : CServiceM) (t : Int)
  | setservices (addr : CServiceM) (sv : Nat)

def applyQ (q : QOp) (s : AState) : AState :=
  match q with
  | .good a t => Good_ s a t
  | .attempt a c t => Attempt_ s a c t
  | .connected a t => Connected_ s a t
  | .setservices a sv => SetServices_ s a sv

def runQ : List QOp → AState → AState
  | [], s => s
  | q :: rest, s => runQ rest (applyQ q s)

/-! ### Invariants (spec section 3) -/

/-- Invariant I1: every stored entry has a nonnegative nRandomPos and the
dense array holds its key at that position. -/
def I1 (s : AState) : Prop :=
  ∀ kv ∈ s.addrMap, 0 ≤ kv.2.nRandomPos ∧ nth s.vRandom kv.2.nRandomPos.toNat = some kv.1

/-- Companion of I1 used by the swap-remove argument: the entry stored
under the key at any dense-array position points back at that position. -/
def I1r (s : AState) : Prop :=
  ∀ p ∈ List.range s.vRandom.length,
    ((nth s.vRandom p).bind (fun k => (mlookup s.addrMap k).map (fun e => e.nRandomPos)))
      = some (p : Int)

/-- Invariant I2: dense-array keys, map keys, and the union of the two
membership sets coincide, and the two sets are disjoint. -/
def I2 (s : AState) : Prop :=
  (∀ k ∈ s.vRandom, mcontains s.addrMap k = true) ∧
  (∀ kv ∈ s.addrMap, kv.1 ∈ s.vRandom ∧ (kv.1 ∈ s.newSet ∨ kv.1 ∈ s.reconnSet)) ∧
  (∀ k ∈ s.newSet, mcontains s.addrMap k = true) ∧
  (∀ k ∈ s.reconnSet, mcontains s.addrMap k = true) ∧
  (∀ k ∈ s.newSet, k ∉ s.reconnSet)

/-- Invariant I3: a stored entry is in the reconnect set iff its
fInReconn flag is set. -/
def I3 (s : AState) : Prop :=
  ∀ kv ∈ s.addrMap, (kv.2.fInReconn = true ↔ kv.1 ∈ s.reconnSet)

/-- Every stored entry's own canonical key equals the key it is stored
under (Create stores CPAddr(addr, src) under addr.ToString()). -/
def KeyCoherent (s : AState) : Prop :=
  ∀ kv ∈ s.addrMap, kv.2.addr.svc.toKey = kv.1

def NodupKeys (m : AMap) : Prop := (m.map Prod.fst).Nodup

/-- The containers modelling hashed containers hold no duplicates. -/
def StateNodup (s : AState) : Prop :=
  NodupKeys s.addrMap ∧ s.newSet.Nodup ∧ s.reconnSet.Nodup

/-- The full representation invariant of the table. -/
def Inv (s : AState) : Prop :=
  I1 s ∧ I1r s ∧ I2 s ∧ I3 s ∧ KeyCoherent s ∧ StateNodup s

/-- The sets point at stored entries whose fInReconn flag matches the set
(the conjunction of I2 and I3 used by the snapshot queries). -/
def SetsCoherent (s : AState) : Prop :=
  (∀ k ∈ s.reconnSet, (mlookup s.addrMap k).map (fun e => e.fInReconn) = some true) ∧
  (∀ k ∈ s.newSet, (mlookup s.addrMap k).map (fun e => e.fInReconn) = some false)

instance (s : AState) : Decidable (I1 s) := by
  unfold I1
  infer_instance

instance (s : AState) : Decidable (I1r s) := by
  unfold I1r
  infer_instance

instance (s : AState) : Decidable (I2 s) := by
  unfold I2
  infer_instance

instance (s : AState) : Decidable (I3 s) := by
  unfold I3
  infer_instance

instance (s : AState) : Decidable (KeyCoherent s) := by
  unfold KeyCoherent
  infer_instance

instance (m : AMap) : Decidable (NodupKeys m) := by
  unfold NodupKeys
  infer_instance

instance (s : AState) : Decidable (StateNodup s) := by
  unfold StateNodup
  infer_instance

instance (s : AState) : Decidable (Inv s) := by
  unfold Inv
  infer_instance

instance (s : AState) : Decidable (SetsCoherent s) := by
  unfold SetsCoherent
  infer_instance

/-! ### Concrete states used by the counterexamples and witnesses -/

/-- A routable service at host 1, port 1. -/
def svc11 : CServiceM := { net := { host := 1, routable := true }, port := 1 }

/-- A routable service at host 3, port 3. -/
def svc33 : CServiceM := { net := { host := 3, routable := true }, port := 3 }

/-- A source peer distinct from every svc used here. -/
def srcA : CNetAddrM := { host := 2, routable := true }

/-- Entry stored at key (1, 1) with five recorded successes. -/
def entry11 : CPAddrM :=
  { addr := { svc := svc11, nServices := 0, nTime := 0 }
    nLastSuccess := 0
    nLastTry := 0
    nSuccesses := 5
    nAttempts := 0
    fInReconn := false
    source := srcA
    nRandomPos := 0 }

/-- One-entry table used by the C5 counterexample. -/
def sDup : AState := ⟨[((1, 1), entry11)], [], [(1, 1)], [(1, 1)]⟩

/-- Address re-announcing key (1, 1). -/
def addrDup : CAddressM := { svc := svc11, nServices := 0, nTime := 7 }

/-- Entry stored at key (1, 1) with stored timestamp 99000. -/
def entryT : CPAddrM :=
  { addr := { svc := svc11, nServices := 0, nTime := 99000 }
    nLastSuccess := 0
    nLastTry := 0
    nSuccesses := 0
    nAttempts := 0
    fInReconn := false
    source := srcA
    nRandomPos := 0 }

/-- One-entry table used by the C3 counterexample. -/
def sTime : AState := ⟨[((1, 1), entryT)], [], [(1, 1)], [(1, 1)]⟩

/-- Incoming re-announcement of key (1, 1) with timestamp 103000. -/
def addrT : CAddressM := { svc := svc11, nServices := 0, nTime := 103000 }

/-- A plain routable address record for key (1, 1) with no timestamp. -/
def addr11 : CAddressM := { svc := svc11, nServices := 0, nTime := 0 }

/-- Table reached from empty by Add(addr11, srcA, 0) at time 0. -/
def sOne : AState := (Add_ emptyState addr11 srcA 0 0).2

/-- Entry with fInReconn set, stored at key (1, 1). -/
def entryR : CPAddrM :=
  { addr := { svc := svc11, nServices := 0, nTime := 0 }
    nLastSuccess := 0
    nLastTry := 0
    nSuccesses := 1
    nAttempts := 0
    fInReconn := true
    source := srcA
    nRandomPos := 0 }

/-- Entry with fInReconn clear, stored at key (3, 3). -/
def entryN : CPAddrM :=
  { addr := { svc := svc33, nServices := 0, nTime := 0 }
    nLastSuccess := 0
    nLastTry := 0
    nSuccesses := 0
    nAttempts := 0
    fInReconn := false
    source := srcA
    nRandomPos := 1 }

/-- Two-entry table, one reconnect entry and one new entry. -/
def sTwo : AState := ⟨[((1, 1), entryR), ((3, 3), entryN)], [(1, 1)], [(3, 3)], [(1, 1), (3, 3)]⟩

/-- Entry whose fInReconn flag disagrees with its set membership: it sits
in the reconnect set while the flag is clear.  This state satisfies I1 and
I2 but not I3. -/
def sBad : AState := ⟨[((1, 1), entry11)], [(1, 1)], [], [(1, 1)]⟩

/-- The canonical keys of a list of snapshot entries. -/
def keysOfEntries (l : List CPAddrM) : List Key := l.map (fun e => e.addr.svc.toKey)

/-- Serialize the address map, deserialize it into a freshly constructed
manager (whose constructor leaves every container empty), then rebuild
the containers with MakeContainers. -/
def roundtripState (s : AState) : AState :=
  MakeContainers (AState.mk (deserMap (serMap s.addrMap)) [] [] [])

/-! ### Lemmas about nth, setNth and popBack -/

theorem nth_some_lt {l : List Key} {p : Nat} {k : Key} (h : nth l p = some k) :
    p < l.length := by
  induction l generalizing p with
  | nil => simp [nth] at h
  | cons a t ih =>
    cases p with
    | zero => simp
    | succ q =>
      simp only [nth] at h
      simpa using Nat.succ_lt_succ (ih h)

theorem nth_lt_length {l : List Key} {p : Nat} (h : p < l.length) :
    ∃ k, nth l p = some k := by
  induction l generalizing p with
  | nil => simp at h
  | cons a t ih =>
    cases p with
    | zero => exact ⟨a, rfl⟩
    | succ q =>
      simp only [List.length_cons, Nat.succ_lt_succ_iff] at h
      exact ih h

theorem nth_mem {l : List Key} {p : Nat} {k : Key} (h : nth l p = some k) : k ∈ l := by
  induction l generalizing p with
  | nil => simp [nth] at h
  | cons a t ih =>
    cases p with
    | zero =>
      simp only [nth, Option.some_inj] at h
      simp [h]
    | succ q =>
      simp only [nth] at h
      exact List.mem_cons_of_mem _ (ih h)

theorem mem_nth {l : List Key} {k : Key} (h : k ∈ l) : ∃ p, nth l p = some k := by
  induction l with
  | nil => simp at h
  | cons a t ih =>
    rcases List.mem_cons.mp h with h1 | h2
    · exact ⟨0, by simp [nth, h1]⟩
    · obtain ⟨p, hp⟩ := ih h2
      exact ⟨p + 1, hp⟩

theorem nth_append_lt {l l2 : List Key} {p : Nat} (h : p < l.length) :
    nth (l ++ l2) p = nth l p := by
  induction l generalizing p with
  | nil => simp at h
  | cons a t ih =>
    cases p with
    | zero => rfl
    | succ q =>
      simp only [List.length_cons, Nat.succ_lt_succ_iff] at h
      simpa [nth] using ih h

theorem nth_append_length (l : List Key) (a : Key) : nth (l ++ [a]) l.length = some a := by
  induction l with
  | nil => rfl
  | cons b t ih => simpa [nth] using ih

theorem length_setNth (l : List Key) (p : Nat) (a : Key) :
    (setNth l p a).length = l.length := by
  induction l generalizing p with
  | nil => rfl
  | cons b t ih =>
    cases p with
    | zero => rfl
    | succ q => simpa [setNth] using ih q

theorem nth_setNth_self {l : List Key} {p : Nat} (a : Key) (h : p < l.length) :
    nth (setNth l p a) p = some a := by
  induction l generalizing p with
  | nil => simp at h
  | cons b t ih =>
    cases p with
    | zero => rfl
    | succ q =>
      simp only [List.length_cons, Nat.succ_lt_succ_iff] at h
      simpa [setNth, nth] using ih h

theorem nth_setNth_ne {l : List Key} {p q : Nat} (a : Key) (h : q ≠ p) :
    nth (setNth l p a) q = nth l q := by
  induction l generalizing p q with
  | nil => rfl
  | cons b t ih =>
    cases p with
    | zero =>
      cases q with
      | zero => exact absurd rfl h
      | succ r => rfl
    | succ p2 =>
      cases q with
      | zero => rfl
      | succ r =>
        simp only [setNth, nth]
        exact ih (fun hc => h (by simp [hc]))

theorem length_popBack (l : List Key) : (popBack l).length = l.length - 1 := by
  induction l with
  | nil => rfl
  | cons a t ih =>
    cases t with
    | nil => rfl
    | cons b t2 => simpa [popBack] using ih

theorem nth_popBack_lt {l : List Key} {q : Nat} (h : q < l.length - 1) :
    nth (popBack l) q = nth l q := by
  induction l generalizing q with
  | nil => simp at h
  | cons a t ih =>
    cases t with
    | nil => simp at h
    | cons b t2 =>
      cases q with
      | zero => rfl
      | succ r =>
        simp only [List.length_cons, Nat.succ_sub_one] at h
        have h2 : r < (b :: t2).length - 1 := by
          simpa using Nat.lt_of_succ_lt_succ (by simpa using h)
        simpa [popBack, nth] using ih h2

theorem mem_popBack {l : List Key} {k : Key} (h : k ∈ popBack l) :
    ∃ q, q < l.length - 1 ∧ nth l q = some k := by
  obtain ⟨q, hq⟩ := mem_nth h
  have hlt : q < (popBack l).length := nth_some_lt hq
  rw [length_popBack] at hlt
  exact ⟨q, hlt, by rw [← nth_popBack_lt hlt]; exact hq⟩

/-! ### Lemmas about the association-list map -/

theorem mlookup_mset_self (m : AMap) (k : Key) (v : CPAddrM) :
    mlookup (mset m k v) k = some v := by
  induction m with
  | nil => simp [mset, mlookup]
  | cons kv t ih =>
    obtain ⟨k2, v2⟩ := kv
    by_cases h : k2 = k
    · simp [mset, mlookup, h]
    · simp [mset, mlookup, h, ih]

theorem mlookup_mset_ne (m : AMap) {k k2 : Key} (v : CPAddrM) (h : k2 ≠ k) :
    mlookup (mset m k v) k2 = mlookup m k2 := by
  have h2 : ¬k = k2 := Ne.symm h
  induction m with
  | nil => simp [mset, mlookup, h2]
  | cons kv t ih =>
    obtain ⟨k3, v3⟩ := kv
    by_cases h3 : k3 = k
    · subst h3
      simp [mset, mlookup, h2]
    · simp [mset, mlookup, h3, ih]

theorem mlookup_mem {m : AMap} {k : Key} {e : CPAddrM} (h : mlookup m k = some e) :
    (k, e) ∈ m := by
  induction m with
  | nil => simp [mlookup] at h
  | cons kv t ih =>
    obtain ⟨k2, v2⟩ := kv
    by_cases h2 : k2 = k
    · subst h2
      have h3 : v2 = e := by simpa [mlookup] using h
      subst h3
      exact List.mem_cons_self _ _
    · simp only [mlookup, if_neg h2] at h
      exact List.mem_cons_of_mem _ (ih h)

theorem mem_keys_of_lookup {m : AMap} {k : Key} {e : CPAddrM} (h : mlookup m k = some e) :
    k ∈ m.map Prod.fst := by
  exact List.mem_map.mpr ⟨(k, e), mlookup_mem h, rfl⟩

theorem mcontains_of_mem {m : AMap} {k : Key} {e : CPAddrM} (h : (k, e) ∈ m) :
    mcontains m k = true := by
  induction m with
  | nil => simp at h
  | cons kv t ih =>
    obtain ⟨k2, v2⟩ := kv
    by_cases h2 : k2 = k
    · simp [mcontains, mlookup, h2]
    · rcases List.mem_cons.mp h with h1 | h3
      · exact absurd (congrArg Prod.fst h1).symm h2
      · simpa [mcontains, mlookup, h2] using ih h3

theorem mcontains_of_mem_keys {m : AMap} {k : Key} (h : k ∈ m.map Prod.fst) :
    mcontains m k = true := by
  obtain ⟨kv, hm, he⟩ := List.mem_map.mp h
  exact he ▸ mcontains_of_mem (show (kv.1, kv.2) ∈ m from hm)

theorem mem_mlookup {m : AMap} (hn : NodupKeys m) {k : Key} {e : CPAddrM}
    (h : (k, e) ∈ m) : mlookup m k = some e := by
  induction m with
  | nil => simp at h
  | cons kv t ih =>
    obtain ⟨k2, v2⟩ := kv
    have hns : k2 ∉ t.map Prod.fst ∧ NodupKeys t := by
      simpa [NodupKeys] using hn
    rcases List.mem_cons.mp h with h1 | h2
    · have hk : k = k2 := congrArg Prod.fst h1
      have hv : e = v2 := congrArg Prod.snd h1
      subst hk
      subst hv
      simp [mlookup]
    · have hne : k2 ≠ k := by
        intro hc
        refine hns.1 ?_
        rw [hc]
        exact List.mem_map.mpr ⟨(k, e), h2, rfl⟩
      simp only [mlookup, if_neg hne]
      exact ih hns.2 h2

theorem mcontains_iff {m : AMap} {k : Key} :
    mcontains m k = true ↔ ∃ e, mlookup m k = some e := by
  simp [mcontains, Option.isSome_iff_exists]

theorem mcontains_false {m : AMap} {k : Key} :
    mcontains m k = false ↔ mlookup m k = none := by
  unfold mcontains
  cases mlookup m k <;> simp

theorem keys_mset_of_contains {m : AMap} {k : Key} (v : CPAddrM)
    (h : mcontains m k = true) : (mset m k v).map Prod.fst = m.map Prod.fst := by
  induction m with
  | nil => simp [mcontains, mlookup] at h
  | cons kv t ih =>
    obtain ⟨k2, v2⟩ := kv
    by_cases h2 : k2 = k
    · simp [mset, h2]
    · have h3 : mcontains t k = true := by
        simpa [mcontains, mlookup, h2] using h
      simp [mset, h2, ih h3]

theorem keys_mset_of_not_contains {m : AMap} {k : Key} (v : CPAddrM)
    (h : mcontains m k = false) :
    (mset m k v).map Prod.fst = m.map Prod.fst ++ [k] := by
  induction m with
  | nil => simp [mset]
  | cons kv t ih =>
    obtain ⟨k2, v2⟩ := kv
    by_cases h2 : k2 = k
    · subst h2
      simp [mcontains, mlookup] at h
    · have h3 : mcontains t k = false := by
        simpa [mcontains, mlookup, h2] using h
      simp [mset, h2, ih h3]

theorem nodupKeys_mset {m : AMap} (hn : NodupKeys m) (k : Key) (v : CPAddrM) :
    NodupKeys (mset m k v) := by
  rcases hb : mcontains m k with _ | _
  · have hnk : k ∉ m.map Prod.fst := by
      intro hmem
      simp [mcontains_of_mem_keys hmem] at hb
    unfold NodupKeys
    rw [keys_mset_of_not_contains v hb, List.nodup_append]
    refine ⟨hn, by simp, ?_⟩
    intro a ha hb2
    have : a = k := by simpa using hb2
    subst this
    exact hnk ha
  · unfold NodupKeys
    rw [keys_mset_of_contains v hb]
    exact hn

theorem mlookup_merase_ne (m : AMap) {k k2 : Key} (h : k2 ≠ k) :
    mlookup (merase m k) k2 = mlookup m k2 := by
  induction m with
  | nil => rfl
  | cons kv t ih =>
    obtain ⟨k3, v3⟩ := kv
    by_cases h3 : k3 = k
    · subst h3
      have h4 : ¬k3 = k2 := Ne.symm h
      simp [merase, mlookup, h4]
    · simp [merase, mlookup, h3, ih]

theorem mlookup_merase_self {m : AMap} (hn : NodupKeys m) (k : Key) :
    mlookup (merase m k) k = none := by
  induction m with
  | nil => rfl
  | cons kv t ih =>
    obtain ⟨k2, v2⟩ := kv
    have hns : k2 ∉ t.map Prod.fst ∧ NodupKeys t := by
      simpa [NodupKeys] using hn
    by_cases h2 : k2 = k
    · subst h2
      simp only [merase, if_pos rfl]
      rcases hl : mlookup t k2 with _ | e
      · exact hl
      · exact absurd (mem_keys_of_lookup hl) hns.1
    · simp [merase, mlookup, h2, ih hns.2]

theorem keys_merase {m : AMap} (k : Key) :
    ∀ k2 ∈ (merase m k).map Prod.fst, k2 ∈ m.map Prod.fst := by
  induction m with
  | nil => simp [merase]
  | cons kv t ih =>
    obtain ⟨k3, v3⟩ := kv
    by_cases h3 : k3 = k
    · subst h3
      intro k2 h2
      have h4 : k2 ∈ t.map Prod.fst := by simpa [merase] using h2
      simp only [List.map_cons]
      exact List.mem_cons_of_mem _ h4
    · simp only [merase, if_neg h3, List.map_cons]
      intro k2 h2
      rcases List.mem_cons.mp h2 with h4 | h5
      · simp [h4]
      · exact List.mem_cons_of_mem _ (ih k2 h5)

theorem nodupKeys_merase {m : AMap} (hn : NodupKeys m) (k : Key) :
    NodupKeys (merase m k) := by
  induction m with
  | nil => exact hn
  | cons kv t ih =>
    obtain ⟨k2, v2⟩ := kv
    have hns : k2 ∉ t.map Prod.fst ∧ NodupKeys t := by
      simpa [NodupKeys] using hn
    by_cases h2 : k2 = k
    · subst h2
      simpa [merase, NodupKeys] using hns.2
    · have ht := ih hns.2
      simp only [NodupKeys, merase, if_neg h2, List.map_cons, List.nodup_cons]
      exact ⟨fun hc => hns.1 (keys_merase k _ hc), ht⟩

theorem length_merase {m : AMap} (hn : NodupKeys m) {k : Key}
    (h : mcontains m k = true) : (merase m k).length = m.length - 1 := by
  induction m with
  | nil => simp [mcontains, mlookup] at h
  | cons kv t ih =>
    obtain ⟨k2, v2⟩ := kv
    have hns : k2 ∉ t.map Prod.fst ∧ NodupKeys t := by
      simpa [NodupKeys] using hn
    by_cases h2 : k2 = k
    · simp [merase, h2]
    · have h3 : mcontains t k = true := by
        simpa [mcontains, mlookup, h2] using h
      have hlen := ih hns.2 h3
      have hpos : 0 < t.length := by
        obtain ⟨e, he⟩ := mcontains_iff.mp h3
        exact List.length_pos.mpr (List.ne_nil_of_mem (mlookup_mem he))
      simp only [merase, if_neg h2, List.length_cons, hlen]
      omega

theorem length_mset_of_contains {m : AMap} {k : Key} (v : CPAddrM)
    (h : mcontains m k = true) : (mset m k v).length = m.length := by
  have h1 : ((mset m k v).map Prod.fst).length = ((m.map Prod.fst)).length := by
    rw [keys_mset_of_contains v h]
  simpa using h1

theorem length_mset_of_not_contains {m : AMap} {k : Key} (v : CPAddrM)
    (h : mcontains m k = false) : (mset m k v).length = m.length + 1 := by
  have h1 : ((mset m k v).map Prod.fst).length = ((m.map Prod.fst)).length + 1 := by
    rw [keys_mset_of_not_contains v h]
    simp
  simpa using h1


theorem mem_sinsert {s : KSet} {k k2 : Key} :
    k2 ∈ sinsert s k ↔ k2 = k ∨ k2 ∈ s := by
  unfold sinsert
  by_cases h : k ∈ s
  · simp only [if_pos h]
    constructor
    · exact fun h2 => Or.inr h2
    · rintro (rfl | h2)
      · exact h
      · exact h2
  · simp [if_neg h]

theorem nodup_sinsert {s : KSet} (hn : s.Nodup) (k : Key) : (sinsert s k).Nodup := by
  unfold sinsert
  by_cases h : k ∈ s
  · simp only [if_pos h]
    exact hn
  · simpa [if_neg h, List.nodup_cons] using And.intro h hn

theorem serase_subset {s : KSet} {k k2 : Key} (h : k2 ∈ serase s k) : k2 ∈ s := by
  induction s with
  | nil => simp [serase] at h
  | cons k3 t ih =>
    by_cases h3 : k3 = k
    · subst h3
      simp only [serase, if_pos rfl] at h
      exact List.mem_cons_of_mem _ h
    · simp only [serase, if_neg h3] at h
      rcases List.mem_cons.mp h with h4 | h5
      · simp [h4]
      · exact List.mem_cons_of_mem _ (ih h5)

theorem mem_serase {s : KSet} (hn : s.Nodup) {k k2 : Key} :
    k2 ∈ serase s k ↔ k2 ∈ s ∧ k2 ≠ k := by
  induction s with
  | nil => simp [serase]
  | cons k3 t ih =>
    have hns := List.nodup_cons.mp hn
    by_cases h3 : k3 = k
    · subst h3
      simp only [serase, if_pos rfl]
      constructor
      · intro h
        refine ⟨List.mem_cons_of_mem _ h, ?_⟩
        intro hc
        subst hc
        exact hns.1 h
      · rintro ⟨h4, h5⟩
        rcases List.mem_cons.mp h4 with h6 | h7
        · exact absurd h6 h5
        · exact h7
    · simp only [serase, if_neg h3, List.mem_cons, ih hns.2]
      constructor
      · rintro (rfl | ⟨h4, h5⟩)
        · exact ⟨Or.inl rfl, fun hc => h3 hc⟩
        · exact ⟨Or.inr h4, h5⟩
      · rintro ⟨h4 | h4, h5⟩
        · exact Or.inl h4
        · exact Or.inr ⟨h4, h5⟩

theorem nodup_serase {s : KSet} (hn : s.Nodup) (k : Key) : (serase s k).Nodup := by
  induction s with
  | nil => exact hn
  | cons k3 t ih =>
    have hns := List.nodup_cons.mp hn
    by_cases h3 : k3 = k
    · simpa [serase, h3] using hns.2
    · simp only [serase, if_neg h3, List.nodup_cons]
      exact ⟨fun hc => hns.1 (serase_subset hc), ih hns.2⟩

/-! ### Bridging lemmas for the invariants -/

theorem mset_mset (m : AMap) (k : Key) (a b : CPAddrM) :
    mset (mset m k a) k b = mset m k b := by
  induction m with
  | nil => simp [mset]
  | cons kv t ih =>
    obtain ⟨k2, v2⟩ := kv
    by_cases h : k2 = k
    · simp [mset, h]
    · simp [mset, h, ih]

theorem I1r_lookup {s : AState} (h : I1r s) {p : Nat} {k : Key}
    (hp : nth s.vRandom p = some k) :
    ∃ e, mlookup s.addrMap k = some e ∧ e.nRandomPos = (p : Int) := by
  have hlt : p < s.vRandom.length := nth_some_lt hp
  have h2 := h p (List.mem_range.mpr hlt)
  rw [hp] at h2
  simp only [Option.some_bind] at h2
  cases hl : mlookup s.addrMap k with
  | none => rw [hl] at h2; simp at h2
  | some e =>
    rw [hl] at h2
    simp only [Option.map_some'] at h2
    refine ⟨e, rfl, ?_⟩
    injection h2

theorem I1r_nth_inj {s : AState} (h : I1r s) {p q : Nat} {k : Key}
    (hp : nth s.vRandom p = some k) (hq : nth s.vRandom q = some k) : p = q := by
  obtain ⟨e1, he1, hp1⟩ := I1r_lookup h hp
  obtain ⟨e2, he2, hq1⟩ := I1r_lookup h hq
  rw [he1] at he2
  have he : e1 = e2 := by
    have := he2
    injection this
  subst he
  rw [hp1] at hq1
  exact_mod_cast hq1

theorem mcontains_eq_of_ser {m2 m : AMap}
    (h : ∀ k, (mlookup m2 k).map serCPAddr = (mlookup m k).map serCPAddr) :
    ∀ k, mcontains m2 k = mcontains m k := by
  intro k
  have h2 := congrArg Option.isSome (h k)
  simpa [mcontains, Option.isSome_map] using h2

/-! ### SwapRandom preserves the invariant -/

/-- Full description of SwapRandom on in-range positions of an
invariant-satisfying state: it succeeds, preserves the invariant, the
sets, the map up to nRandomPos fields, and exchanges exactly the two
dense-array slots. -/
theorem swap_spec (s : AState) (p1 p2 : Nat) (hInv : Inv s)
    (h1 : p1 < s.vRandom.length) (h2 : p2 < s.vRandom.length) :
    ∃ s2, SwapRandom s p1 p2 = some s2 ∧ Inv s2 ∧
      s2.reconnSet = s.reconnSet ∧
      s2.newSet = s.newSet ∧
      s2.vRandom.length = s.vRandom.length ∧
      (∀ k, (mlookup s2.addrMap k).map serCPAddr = (mlookup s.addrMap k).map serCPAddr) ∧
      (∀ q, q ≠ p1 → q ≠ p2 → nth s2.vRandom q = nth s.vRandom q) ∧
      nth s2.vRandom p1 = nth s.vRandom p2 ∧
      nth s2.vRandom p2 = nth s.vRandom p1 := by
  by_cases hp : p1 = p2
  · subst hp
    exact ⟨s, by simp [SwapRandom], hInv, rfl, rfl, rfl, fun k => rfl,
      fun q _ _ => rfl, rfl, rfl⟩
  · obtain ⟨a1, ha1⟩ := nth_lt_length h1
    obtain ⟨a2, ha2⟩ := nth_lt_length h2
    obtain ⟨hI1, hI1r, hI2, hI3, hKC, hND⟩ := hInv
    obtain ⟨e1, he1, hpos1⟩ := I1r_lookup hI1r ha1
    obtain ⟨e2, he2, hpos2⟩ := I1r_lookup hI1r ha2
    have hane : a1 ≠ a2 := by
      intro hc
      subst hc
      exact hp (I1r_nth_inj hI1r ha1 ha2)
    have hlook1 : mlookup (mset s.addrMap a1 { e1 with nRandomPos := (p2 : Int) }) a2
        = some e2 := by
      rw [mlookup_mset_ne _ _ (Ne.symm hane)]
      exact he2
    have hcore : swapCore s p1 p2 =
        { s with
          addrMap := mset (mset s.addrMap a1 { e1 with nRandomPos := (p2 : Int) }) a2
            { e2 with nRandomPos := (p1 : Int) }
          vRandom := setNth (setNth s.vRandom p1 a2) p2 a1 } := by
      have hs1 : subSetPos s.addrMap a1 (p2 : Int)
          = mset s.addrMap a1 { e1 with nRandomPos := (p2 : Int) } := by
        rw [subSetPos, he1]
      have hs2 : subSetPos (mset s.addrMap a1 { e1 with nRandomPos := (p2 : Int) }) a2 (p1 : Int)
          = mset (mset s.addrMap a1 { e1 with nRandomPos := (p2 : Int) }) a2
              { e2 with nRandomPos := (p1 : Int) } := by
        rw [subSetPos, hlook1]
      simp only [swapCore, ha1, ha2, hs1, hs2]
    set m2 : AMap := mset (mset s.addrMap a1 { e1 with nRandomPos := (p2 : Int) }) a2
      { e2 with nRandomPos := (p1 : Int) } with hm2def
    set v2 : List Key := setNth (setNth s.vRandom p1 a2) p2 a1 with hv2def
    have hlookChar : ∀ k, mlookup m2 k =
        if k = a2 then some { e2 with nRandomPos := (p1 : Int) }
        else if k = a1 then some { e1 with nRandomPos := (p2 : Int) }
        else mlookup s.addrMap k := by
      intro k
      by_cases hk2 : k = a2
      · subst hk2
        rw [hm2def, mlookup_mset_self, if_pos rfl]
      · by_cases hk1 : k = a1
        · subst hk1
          rw [hm2def, mlookup_mset_ne _ _ hane, mlookup_mset_self, if_neg hk2, if_pos rfl]
        · rw [hm2def, mlookup_mset_ne _ _ hk2, mlookup_mset_ne _ _ hk1,
            if_neg hk2, if_neg hk1]
    have hlen2 : v2.length = s.vRandom.length := by
      rw [hv2def, length_setNth, length_setNth]
    have hnthChar : ∀ q, nth v2 q =
        if q = p2 then some a1
        else if q = p1 then some a2
        else nth s.vRandom q := by
      intro q
      by_cases hq2 : q = p2
      · subst hq2
        rw [hv2def, if_pos rfl, nth_setNth_self]
        rw [length_setNth]
        exact h2
      · rw [hv2def, nth_setNth_ne _ hq2, if_neg hq2]
        by_cases hq1 : q = p1
        · subst hq1
          rw [nth_setNth_self _ h1, if_pos rfl]
        · rw [nth_setNth_ne _ hq1, if_neg hq1]
    have hser : ∀ k, (mlookup m2 k).map serCPAddr = (mlookup s.addrMap k).map serCPAddr := by
      intro k
      rw [hlookChar k]
      by_cases hk2 : k = a2
      · subst hk2
        rw [if_pos rfl, he2]
        rfl
      · by_cases hk1 : k = a1
        · subst hk1
          rw [if_neg hk2, if_pos rfl, he1]
          rfl
        · rw [if_neg hk2, if_neg hk1]
    have hcont := mcontains_eq_of_ser hser
    have hmemv : ∀ k, k ∈ v2 ↔ k ∈ s.vRandom := by
      intro k
      constructor
      · intro hmem
        obtain ⟨q, hq⟩ := mem_nth hmem
        rw [hnthChar q] at hq
        by_cases hq2 : q = p2
        · rw [if_pos hq2] at hq
          cases hq
          exact nth_mem ha1
        · rw [if_neg hq2] at hq
          by_cases hq1 : q = p1
          · rw [if_pos hq1] at hq
            cases hq
            exact nth_mem ha2
          · rw [if_neg hq1] at hq
            exact nth_mem hq
      · intro hmem
        obtain ⟨q, hq⟩ := mem_nth hmem
        by_cases hq1 : q = p1
        · rw [hq1, ha1] at hq
          cases hq
          have h5 : nth v2 p2 = some a1 := by rw [hnthChar, if_pos rfl]
          exact nth_mem h5
        · by_cases hq2 : q = p2
          · rw [hq2, ha2] at hq
            cases hq
            have h5 : nth v2 p1 = some a2 := by
              rw [hnthChar, if_neg hp, if_pos rfl]
            exact nth_mem h5
          · have h5 : nth v2 q = some k := by
              rw [hnthChar, if_neg hq2, if_neg hq1]
              exact hq
            exact nth_mem h5
    have hnd2 : NodupKeys m2 := by
      have hk1 : NodupKeys (mset s.addrMap a1 { e1 with nRandomPos := (p2 : Int) }) :=
        nodupKeys_mset hND.1 _ _
      exact nodupKeys_mset hk1 _ _
    have hflagser : ∀ k ee, mlookup m2 k = some ee →
        ∃ e0, mlookup s.addrMap k = some e0 ∧ ee.fInReconn = e0.fInReconn ∧
          ee.addr.svc = e0.addr.svc ∧ ee.nRandomPos.toNat < s.vRandom.length ∧
          0 ≤ ee.nRandomPos ∧ nth v2 ee.nRandomPos.toNat = some k := by
      intro k ee hee
      rw [hlookChar k] at hee
      by_cases hk2 : k = a2
      · rw [if_pos hk2] at hee
        cases hee
        subst hk2
        refine ⟨e2, he2, rfl, rfl, ?_, ?_, ?_⟩
        · simpa using h1
        · simp
        · have h5 : nth v2 p1 = some k := by
            rw [hnthChar, if_neg hp, if_pos rfl]
          simpa using h5
      · rw [if_neg hk2] at hee
        by_cases hk1 : k = a1
        · rw [if_pos hk1] at hee
          cases hee
          subst hk1
          refine ⟨e1, he1, rfl, rfl, ?_, ?_, ?_⟩
          · simpa using h2
          · simp
          · have h5 : nth v2 p2 = some k := by
              rw [hnthChar, if_pos rfl]
            simpa using h5
        · rw [if_neg hk1] at hee
          have hkv := mlookup_mem hee
          obtain ⟨hge, hnth⟩ := hI1 (k, ee) hkv
          have hlt := nth_some_lt hnth
          refine ⟨ee, hee, rfl, rfl, hlt, hge, ?_⟩
          have hne1 : ee.nRandomPos.toNat ≠ p1 := by
            intro hc
            rw [hc] at hnth
            rw [hnth] at ha1
            cases ha1
            exact hk1 rfl
          have hne2 : ee.nRandomPos.toNat ≠ p2 := by
            intro hc
            rw [hc] at hnth
            rw [hnth] at ha2
            cases ha2
            exact hk2 rfl
          rw [hnthChar, if_neg hne2, if_neg hne1]
          exact hnth
    refine ⟨{ s with addrMap := m2, vRandom := v2 }, ?_, ?_, rfl, rfl, hlen2, hser, ?_, ?_, ?_⟩
    · rw [SwapRandom, if_neg hp, if_pos ⟨h1, h2⟩, hcore]
    · refine ⟨?_, ?_, ?_, ?_, ?_, ?_⟩
      · -- I1
        intro kv hmem
        have hee := mem_mlookup hnd2 hmem
        obtain ⟨e0, _, _, _, _, hge, hnth⟩ := hflagser kv.1 kv.2 hee
        exact ⟨hge, hnth⟩
      · -- I1r
        intro p hpr
        have hpl : p < s.vRandom.length := by
          simpa [hlen2] using List.mem_range.mp hpr
        by_cases hq2 : p = p2
        · have hv : nth v2 p = some a1 := by rw [hq2, hnthChar, if_pos rfl]
          rw [show nth ({ s with addrMap := m2, vRandom := v2 } : AState).vRandom p
              = some a1 from hv]
          have hl5 : mlookup m2 a1 = some { e1 with nRandomPos := (p2 : Int) } := by
            rw [hlookChar, if_neg hane, if_pos rfl]
          simp [hl5, hq2]
        · by_cases hq1 : p = p1
          · have hv : nth v2 p = some a2 := by
              rw [hq1, hnthChar, if_neg hp, if_pos rfl]
            rw [show nth ({ s with addrMap := m2, vRandom := v2 } : AState).vRandom p
                = some a2 from hv]
            have hl5 : mlookup m2 a2 = some { e2 with nRandomPos := (p1 : Int) } := by
              rw [hlookChar, if_pos rfl]
            simp [hl5, hq1]
          · obtain ⟨kq, hkq⟩ := nth_lt_length hpl
            have hknot1 : kq ≠ a1 := by
              intro hc
              subst hc
              exact hq1 (I1r_nth_inj hI1r hkq ha1)
            have hknot2 : kq ≠ a2 := by
              intro hc
              subst hc
              exact hq2 (I1r_nth_inj hI1r hkq ha2)
            have hv : nth v2 p = some kq := by
              rw [hnthChar, if_neg hq2, if_neg hq1]
              exact hkq
            have hl2 : mlookup m2 kq = mlookup s.addrMap kq := by
              rw [hlookChar, if_neg hknot2, if_neg hknot1]
            obtain ⟨eq0, heq0, hposq⟩ := I1r_lookup hI1r hkq
            show ((nth v2 p).bind fun k2 => (mlookup m2 k2).map fun e => e.nRandomPos)
              = some (p : Int)
            rw [hv]
            simp [hl2, heq0, hposq]
      · -- I2
        refine ⟨?_, ?_, ?_, ?_, ?_⟩
        · intro k hk
          rw [hcont k]
          exact hI2.1 k ((hmemv k).mp hk)
        · intro kv hmem
          have hee := mem_mlookup hnd2 hmem
          obtain ⟨e0, he0, _, _, _, _, _⟩ := hflagser kv.1 kv.2 hee
          have hkv0 := mlookup_mem he0
          obtain ⟨hv, hsets⟩ := hI2.2.1 (kv.1, e0) hkv0
          exact ⟨(hmemv kv.1).mpr hv, hsets⟩
        · intro k hk
          rw [hcont k]
          exact hI2.2.2.1 k hk
        · intro k hk
          rw [hcont k]
          exact hI2.2.2.2.1 k hk
        · exact hI2.2.2.2.2
      · -- I3
        intro kv hmem
        have hee := mem_mlookup hnd2 hmem
        obtain ⟨e0, he0, hflag, _, _, _, _⟩ := hflagser kv.1 kv.2 hee
        have hkv0 := mlookup_mem he0
        rw [hflag]
        exact hI3 (kv.1, e0) hkv0
      · -- KeyCoherent
        intro kv hmem
        have hee := mem_mlookup hnd2 hmem
        obtain ⟨e0, he0, _, hsvc, _, _, _⟩ := hflagser kv.1 kv.2 hee
        have hkv0 := mlookup_mem he0
        have := hKC (kv.1, e0) hkv0
        rw [show kv.2.addr.svc.toKey = e0.addr.svc.toKey from by rw [hsvc]]
        exact this
      · -- StateNodup
        refine ⟨?_, hND.2.1, hND.2.2⟩
        unfold NodupKeys
        rw [hm2def, keys_mset_of_contains, keys_mset_of_contains]
        · exact hND.1
        · exact mcontains_iff.mpr ⟨e1, he1⟩
        · rw [mcontains_iff]
          exact ⟨e2, hlook1⟩
    · intro q hq1 hq2
      have : nth v2 q = nth s.vRandom q := by
        rw [hnthChar, if_neg hq2, if_neg hq1]
      exact this
    · have h5 : nth v2 p1 = some a2 := by
        rw [hnthChar, if_neg hp, if_pos rfl]
      rw [h5, ha2]
    · have h5 : nth v2 p2 = some a1 := by
        rw [hnthChar, if_pos rfl]
      rw [h5, ha1]

/-! ### Invariant preservation for in-place entry updates -/

/-- Replacing a stored entry by one with the same nRandomPos, the same
fInReconn flag and the same service identity preserves the invariant. -/
theorem inv_mset_same {s : AState} {k : Key} {e e2 : CPAddrM} (hInv : Inv s)
    (he : mlookup s.addrMap k = some e)
    (hpos : e2.nRandomPos = e.nRandomPos) (hflag : e2.fInReconn = e.fInReconn)
    (hsvc : e2.addr.svc = e.addr.svc) :
    Inv { s with addrMap := mset s.addrMap k e2 } := by
  obtain ⟨hI1, hI1r, hI2, hI3, hKC, hND⟩ := hInv
  have hcontk : mcontains s.addrMap k = true := mcontains_iff.mpr ⟨e, he⟩
  have hnd2 : NodupKeys (mset s.addrMap k e2) := nodupKeys_mset hND.1 _ _
  have hchar : ∀ k2, mlookup (mset s.addrMap k e2) k2
      = if k2 = k then some e2 else mlookup s.addrMap k2 := by
    intro k2
    by_cases hk : k2 = k
    · rw [if_pos hk, hk, mlookup_mset_self]
    · rw [if_neg hk, mlookup_mset_ne _ _ hk]
  have hcont2 : ∀ k2, mcontains (mset s.addrMap k e2) k2 = mcontains s.addrMap k2 := by
    intro k2
    unfold mcontains
    rw [hchar k2]
    by_cases hk : k2 = k
    · rw [if_pos hk, hk, he]
      rfl
    · rw [if_neg hk]
  have hkmem := mlookup_mem he
  refine ⟨?_, ?_, ?_, ?_, ?_, ?_⟩
  · intro kv hmem
    have hl := mem_mlookup hnd2 hmem
    rw [hchar kv.1] at hl
    by_cases hk : kv.1 = k
    · rw [if_pos hk] at hl
      have hv2 : kv.2 = e2 := by
        injection hl.symm
      obtain ⟨hge, hnth⟩ := hI1 (k, e) hkmem
      rw [hv2, hpos]
      exact ⟨hge, by rw [hk]; exact hnth⟩
    · rw [if_neg hk] at hl
      exact hI1 (kv.1, kv.2) (mlookup_mem hl)
  · intro p hp
    have horig := hI1r p hp
    show ((nth s.vRandom p).bind fun k2 => (mlookup (mset s.addrMap k e2) k2).map
      fun e3 => e3.nRandomPos) = some (p : Int)
    cases hkp : nth s.vRandom p with
    | none => rw [hkp] at horig; simp at horig
    | some kp =>
      rw [hkp] at horig
      simp only [Option.some_bind] at horig
      simp only [Option.some_bind, hchar kp]
      by_cases hk : kp = k
      · rw [if_pos hk]
        rw [hk, he] at horig
        simp only [Option.map_some'] at horig
        simp [hpos, horig]
      · rw [if_neg hk]
        exact horig
  · refine ⟨?_, ?_, ?_, ?_, ?_⟩
    · intro k2 hk2
      rw [hcont2 k2]
      exact hI2.1 k2 hk2
    · intro kv hmem
      have hl := mem_mlookup hnd2 hmem
      rw [hchar kv.1] at hl
      by_cases hk : kv.1 = k
      · rw [hk]
        exact hI2.2.1 (k, e) hkmem
      · rw [if_neg hk] at hl
        exact hI2.2.1 (kv.1, kv.2) (mlookup_mem hl)
    · intro k2 hk2
      rw [hcont2 k2]
      exact hI2.2.2.1 k2 hk2
    · intro k2 hk2
      rw [hcont2 k2]
      exact hI2.2.2.2.1 k2 hk2
    · exact hI2.2.2.2.2
  · intro kv hmem
    have hl := mem_mlookup hnd2 hmem
    rw [hchar kv.1] at hl
    by_cases hk : kv.1 = k
    · rw [if_pos hk] at hl
      have hv2 : kv.2 = e2 := by
        injection hl.symm
      rw [hv2, hflag, hk]
      exact hI3 (k, e) hkmem
    · rw [if_neg hk] at hl
      exact hI3 (kv.1, kv.2) (mlookup_mem hl)
  · intro kv hmem
    have hl := mem_mlookup hnd2 hmem
    rw [hchar kv.1] at hl
    by_cases hk : kv.1 = k
    · rw [if_pos hk] at hl
      have hv2 : kv.2 = e2 := by
        injection hl.symm
      rw [hv2, show e2.addr.svc.toKey = e.addr.svc.toKey from by rw [hsvc], hk]
      exact hKC (k, e) hkmem
    · rw [if_neg hk] at hl
      exact hKC (kv.1, kv.2) (mlookup_mem hl)
  · refine ⟨?_, hND.2.1, hND.2.2⟩
    unfold NodupKeys
    rw [keys_mset_of_contains _ hcontk]
    exact hND.1

/-- The reconnect transition of Good_ preserves the invariant: the stored
entry at k (currently flagged false, hence in the new set) is replaced by
one flagged true, k moves from the new set to the reconnect set. -/
theorem inv_good_flip {s : AState} {k : Key} {e e2 : CPAddrM} (hInv : Inv s)
    (he : mlookup s.addrMap k = some e)
    (hnot : e.fInReconn = false)
    (hpos : e2.nRandomPos = e.nRandomPos) (hflag : e2.fInReconn = true)
    (hsvc : e2.addr.svc = e.addr.svc) :
    Inv { s with
          addrMap := mset s.addrMap k e2
          reconnSet := sinsert s.reconnSet k
          newSet := serase s.newSet k } := by
  obtain ⟨hI1, hI1r, hI2, hI3, hKC, hND⟩ := hInv
  have hcontk : mcontains s.addrMap k = true := mcontains_iff.mpr ⟨e, he⟩
  have hnd2 : NodupKeys (mset s.addrMap k e2) := nodupKeys_mset hND.1 _ _
  have hchar : ∀ k2, mlookup (mset s.addrMap k e2) k2
      = if k2 = k then some e2 else mlookup s.addrMap k2 := by
    intro k2
    by_cases hk : k2 = k
    · rw [if_pos hk, hk, mlookup_mset_self]
    · rw [if_neg hk, mlookup_mset_ne _ _ hk]
  have hcont2 : ∀ k2, mcontains (mset s.addrMap k e2) k2 = mcontains s.addrMap k2 := by
    intro k2
    unfold mcontains
    rw [hchar k2]
    by_cases hk : k2 = k
    · rw [if_pos hk, hk, he]
      rfl
    · rw [if_neg hk]
  have hkmem := mlookup_mem he
  have hknr : k ∉ s.reconnSet := by
    intro hc
    have := (hI3 (k, e) hkmem).mpr hc
    rw [hnot] at this
    cases this
  have hknew : k ∈ s.newSet := by
    rcases (hI2.2.1 (k, e) hkmem).2 with h | h
    · exact h
    · exact absurd h hknr
  refine ⟨?_, ?_, ?_, ?_, ?_, ?_⟩
  · intro kv hmem
    have hl := mem_mlookup hnd2 hmem
    rw [hchar kv.1] at hl
    by_cases hk : kv.1 = k
    · rw [if_pos hk] at hl
      have hv2 : kv.2 = e2 := by
        injection hl.symm
      obtain ⟨hge, hnth⟩ := hI1 (k, e) hkmem
      rw [hv2, hpos]
      exact ⟨hge, by rw [hk]; exact hnth⟩
    · rw [if_neg hk] at hl
      exact hI1 (kv.1, kv.2) (mlookup_mem hl)
  · intro p hp
    have horig := hI1r p hp
    show ((nth s.vRandom p).bind fun k2 => (mlookup (mset s.addrMap k e2) k2).map
      fun e3 => e3.nRandomPos) = some (p : Int)
    cases hkp : nth s.vRandom p with
    | none => rw [hkp] at horig; simp at horig
    | some kp =>
      rw [hkp] at horig
      simp only [Option.some_bind] at horig
      simp only [Option.some_bind, hchar kp]
      by_cases hk : kp = k
      · rw [if_pos hk]
        rw [hk, he] at horig
        simp only [Option.map_some'] at horig
        simp [hpos, horig]
      · rw [if_neg hk]
        exact horig
  · refine ⟨?_, ?_, ?_, ?_, ?_⟩
    · intro k2 hk2
      rw [hcont2 k2]
      exact hI2.1 k2 hk2
    · intro kv hmem
      have hl := mem_mlookup hnd2 hmem
      rw [hchar kv.1] at hl
      by_cases hk : kv.1 = k
      · rw [hk]
        refine ⟨(hI2.2.1 (k, e) hkmem).1, Or.inr (mem_sinsert.mpr (Or.inl rfl))⟩
      · rw [if_neg hk] at hl
        obtain ⟨hv, hsets⟩ := hI2.2.1 (kv.1, kv.2) (mlookup_mem hl)
        refine ⟨hv, ?_⟩
        rcases hsets with h | h
        · exact Or.inl ((mem_serase hND.2.1).mpr ⟨h, hk⟩)
        · exact Or.inr (mem_sinsert.mpr (Or.inr h))
    · intro k2 hk2
      rw [hcont2 k2]
      exact hI2.2.2.1 k2 (serase_subset hk2)
    · intro k2 hk2
      rw [hcont2 k2]
      rcases mem_sinsert.mp hk2 with h | h
      · rw [h]
        exact hcontk
      · exact hI2.2.2.2.1 k2 h
    · intro k2 hk2 hc
      obtain ⟨hin, hne⟩ := (mem_serase hND.2.1).mp hk2
      rcases mem_sinsert.mp hc with h | h
      · exact hne h
      · exact hI2.2.2.2.2 k2 hin h
  · intro kv hmem
    have hl := mem_mlookup hnd2 hmem
    rw [hchar kv.1] at hl
    by_cases hk : kv.1 = k
    · rw [if_pos hk] at hl
      have hv2 : kv.2 = e2 := by
        injection hl.symm
      rw [hv2, hflag, hk]
      simp [mem_sinsert]
    · rw [if_neg hk] at hl
      have horig := hI3 (kv.1, kv.2) (mlookup_mem hl)
      rw [horig]
      constructor
      · intro h
        exact mem_sinsert.mpr (Or.inr h)
      · intro h
        rcases mem_sinsert.mp h with h2 | h2
        · exact absurd h2 hk
        · exact h2
  · intro kv hmem
    have hl := mem_mlookup hnd2 hmem
    rw [hchar kv.1] at hl
    by_cases hk : kv.1 = k
    · rw [if_pos hk] at hl
      have hv2 : kv.2 = e2 := by
        injection hl.symm
      rw [hv2, show e2.addr.svc.toKey = e.addr.svc.toKey from by rw [hsvc], hk]
      exact hKC (k, e) hkmem
    · rw [if_neg hk] at hl
      exact hKC (kv.1, kv.2) (mlookup_mem hl)
  · refine ⟨?_, nodup_serase hND.2.1 k, nodup_sinsert hND.2.2 k⟩
    unfold NodupKeys
    rw [keys_mset_of_contains _ hcontk]
    exact hND.1

/-- Inserting a fresh key (absent from the map) with nRandomPos equal to
the old dense-array length, flag false and matching service identity,
while appending the key to the dense array and inserting it into the new
set, preserves the invariant.  This is the Create-then-adjust shape of the
fresh branch of Add_. -/
theorem inv_create {s : AState} {k : Key} {e2 : CPAddrM} (hInv : Inv s)
    (hnone : mlookup s.addrMap k = none)
    (hpos : e2.nRandomPos = (s.vRandom.length : Int)) (hflag : e2.fInReconn = false)
    (hkc : e2.addr.svc.toKey = k) :
    Inv { s with
          addrMap := mset s.addrMap k e2
          vRandom := s.vRandom ++ [k]
          newSet := sinsert s.newSet k } := by
  obtain ⟨hI1, hI1r, hI2, hI3, hKC, hND⟩ := hInv
  have hcontk : mcontains s.addrMap k = false := mcontains_false.mpr hnone
  have hnd2 : NodupKeys (mset s.addrMap k e2) := nodupKeys_mset hND.1 _ _
  have hchar : ∀ k2, mlookup (mset s.addrMap k e2) k2
      = if k2 = k then some e2 else mlookup s.addrMap k2 := by
    intro k2
    by_cases hk : k2 = k
    · rw [if_pos hk, hk, mlookup_mset_self]
    · rw [if_neg hk, mlookup_mset_ne _ _ hk]
  have hknr : k ∉ s.reconnSet := by
    intro hc
    have := hI2.2.2.2.1 k hc
    rw [hcontk] at this
    cases this
  have hknv : k ∉ s.vRandom := by
    intro hc
    have := hI2.1 k hc
    rw [hcontk] at this
    cases this
  have hnthv : ∀ q, q < s.vRandom.length → nth (s.vRandom ++ [k]) q = nth s.vRandom q :=
    fun q hq => nth_append_lt hq
  refine ⟨?_, ?_, ?_, ?_, ?_, ?_⟩
  · intro kv hmem
    have hl := mem_mlookup hnd2 hmem
    rw [hchar kv.1] at hl
    by_cases hk : kv.1 = k
    · rw [if_pos hk] at hl
      have hv2 : kv.2 = e2 := by
        injection hl.symm
      rw [hv2, hpos]
      refine ⟨by simp, ?_⟩
      rw [hk]
      simpa using nth_append_length s.vRandom k
    · rw [if_neg hk] at hl
      obtain ⟨hge, hnth⟩ := hI1 (kv.1, kv.2) (mlookup_mem hl)
      exact ⟨hge, by rw [hnthv _ (nth_some_lt hnth)]; exact hnth⟩
  · intro p hp
    have hpl : p < s.vRandom.length + 1 := by
      simpa using List.mem_range.mp hp
    show ((nth (s.vRandom ++ [k]) p).bind fun k2 => (mlookup (mset s.addrMap k e2) k2).map
      fun e3 => e3.nRandomPos) = some (p : Int)
    by_cases hpe : p = s.vRandom.length
    · rw [hpe, nth_append_length]
      simp only [Option.some_bind, hchar k, if_pos rfl]
      simp [hpos]
    · have hplt : p < s.vRandom.length := by omega
      rw [hnthv p hplt]
      have horig := hI1r p (List.mem_range.mpr hplt)
      cases hkp : nth s.vRandom p with
      | none => rw [hkp] at horig; simp at horig
      | some kp =>
        rw [hkp] at horig
        simp only [Option.some_bind] at horig
        have hkne : kp ≠ k := by
          intro hc
          exact hknv (hc ▸ nth_mem hkp)
        simp only [Option.some_bind, hchar kp, if_neg hkne]
        exact horig
  · refine ⟨?_, ?_, ?_, ?_, ?_⟩
    · intro k2 hk2
      rw [mcontains_iff]
      rcases List.mem_append.mp hk2 with h | h
      · by_cases hk : k2 = k
        · exact ⟨e2, by rw [hchar, if_pos hk]⟩
        · obtain ⟨e0, he0⟩ := mcontains_iff.mp (hI2.1 k2 h)
          exact ⟨e0, by rw [hchar, if_neg hk]; exact he0⟩
      · have hk : k2 = k := by simpa using h
        exact ⟨e2, by rw [hchar, if_pos hk]⟩
    · intro kv hmem
      have hl := mem_mlookup hnd2 hmem
      rw [hchar kv.1] at hl
      by_cases hk : kv.1 = k
      · rw [hk]
        refine ⟨List.mem_append.mpr (Or.inr (by simp)), Or.inl (mem_sinsert.mpr (Or.inl rfl))⟩
      · rw [if_neg hk] at hl
        obtain ⟨hv, hsets⟩ := hI2.2.1 (kv.1, kv.2) (mlookup_mem hl)
        refine ⟨List.mem_append.mpr (Or.inl hv), ?_⟩
        rcases hsets with h | h
        · exact Or.inl (mem_sinsert.mpr (Or.inr h))
        · exact Or.inr h
    · intro k2 hk2
      rcases mem_sinsert.mp hk2 with h | h
      · rw [h, mcontains_iff]
        exact ⟨e2, by rw [hchar, if_pos rfl]⟩
      · have := hI2.2.2.1 k2 h
        obtain ⟨e0, he0⟩ := mcontains_iff.mp this
        rw [mcontains_iff]
        by_cases hk : k2 = k
        · exact ⟨e2, by rw [hchar, if_pos hk]⟩
        · exact ⟨e0, by rw [hchar, if_neg hk]; exact he0⟩
    · intro k2 hk2
      have := hI2.2.2.2.1 k2 hk2
      obtain ⟨e0, he0⟩ := mcontains_iff.mp this
      rw [mcontains_iff]
      by_cases hk : k2 = k
      · exact ⟨e2, by rw [hchar, if_pos hk]⟩
      · exact ⟨e0, by rw [hchar, if_neg hk]; exact he0⟩
    · intro k2 hk2 hc
      rcases mem_sinsert.mp hk2 with h | h
      · rw [h] at hc
        exact hknr hc
      · exact hI2.2.2.2.2 k2 h hc
  · intro kv hmem
    have hl := mem_mlookup hnd2 hmem
    rw [hchar kv.1] at hl
    by_cases hk : kv.1 = k
    · rw [if_pos hk] at hl
      have hv2 : kv.2 = e2 := by
        injection hl.symm
      rw [hv2, hflag, hk]
      constructor
      · intro h
        cases h
      · intro h
        exact absurd h hknr
    · rw [if_neg hk] at hl
      exact hI3 (kv.1, kv.2) (mlookup_mem hl)
  · intro kv hmem
    have hl := mem_mlookup hnd2 hmem
    rw [hchar kv.1] at hl
    by_cases hk : kv.1 = k
    · rw [if_pos hk] at hl
      have hv2 : kv.2 = e2 := by
        injection hl.symm
      rw [hv2, hkc, hk]
    · rw [if_neg hk] at hl
      exact hKC (kv.1, kv.2) (mlookup_mem hl)
  · refine ⟨?_, ?_, hND.2.2⟩
    · unfold NodupKeys
      rw [keys_mset_of_not_contains _ hcontk, List.nodup_append]
      refine ⟨hND.1, by simp, ?_⟩
      intro a ha hb
      have hak : a = k := by simpa using hb
      rw [hak] at ha
      have := mcontains_of_mem_keys ha
      rw [hcontk] at this
      cases this
    · exact nodup_sinsert hND.2.1 k

/-! ### Behaviour of Add_ -/

/-- On an existing key, Add_ returns false, leaves every container except
the map unchanged, and replaces the stored entry by the entry with the
merged service bits and the conditionally recomputed timestamp of
paddrman.cpp lines 77 to 91. -/
theorem add_existing (s : AState) (addr : CAddressM) (src : CNetAddrM)
    (pen now : Int) (e : CPAddrM)
    (hr : addr.isRoutable = true)
    (he : mlookup s.addrMap addr.svc.toKey = some e) :
    (Add_ s addr src pen now).1 = false ∧
    mlookup (Add_ s addr src pen now).2.addrMap addr.svc.toKey =
      some { e with addr :=
        { e.addr with
          nTime := if addr.nTime ≠ 0 ∧ (e.addr.nTime = 0 ∨
              (e.addr.nTime : Int) < (addr.nTime : Int)
                - (if now - (addr.nTime : Int) < 24 * 60 * 60 then 60 * 60 else 24 * 60 * 60)
                - (if addr.svc.net.host = src.host then 0 else pen))
            then ((addr.nTime : Int) - (if addr.svc.net.host = src.host then 0 else pen)).toNat
            else e.addr.nTime
          nServices := Nat.lor e.addr.nServices addr.nServices } } ∧
    (∀ k2, k2 ≠ addr.svc.toKey →
      mlookup (Add_ s addr src pen now).2.addrMap k2 = mlookup s.addrMap k2) ∧
    (Add_ s addr src pen now).2.vRandom = s.vRandom ∧
    (Add_ s addr src pen now).2.newSet = s.newSet ∧
    (Add_ s addr src pen now).2.reconnSet = s.reconnSet ∧
    (Add_ s addr src pen now).2.addrMap.length = s.addrMap.length := by
  have hb : ¬addr.isRoutable = false := by simp [hr]
  by_cases hc : addr.nTime ≠ 0 ∧ (e.addr.nTime = 0 ∨
      (e.addr.nTime : Int) < (addr.nTime : Int)
        - (if now - (addr.nTime : Int) < 24 * 60 * 60 then 60 * 60 else 24 * 60 * 60)
        - (if addr.svc.net.host = src.host then 0 else pen))
  · simp only [Add_, Find, hr, Bool.true_eq_false, ite_false, he, if_pos hc, mlookup_mset_self]
    refine ⟨by trivial, by trivial, ?_, by trivial, by trivial, by trivial, ?_⟩
    · intro k2 hk2
      exact mlookup_mset_ne s.addrMap _ hk2
    · exact length_mset_of_contains _ (mcontains_iff.mpr ⟨e, he⟩)
  · simp only [Add_, Find, hr, Bool.true_eq_false, ite_false, he, if_neg hc, mlookup_mset_self]
    refine ⟨by trivial, by trivial, ?_, by trivial, by trivial, by trivial, ?_⟩
    · intro k2 hk2
      exact mlookup_mset_ne s.addrMap _ hk2
    · exact length_mset_of_contains _ (mcontains_iff.mpr ⟨e, he⟩)

/-- On a fresh routable key, Add_ returns true and stores the Create
entry with the penalty-adjusted timestamp (paddrman.cpp lines 92 to 100). -/
theorem add_fresh (s : AState) (addr : CAddressM) (src : CNetAddrM)
    (pen now : Int)
    (hr : addr.isRoutable = true)
    (hnone : mlookup s.addrMap addr.svc.toKey = none) :
    (Add_ s addr src pen now).1 = true ∧
    mlookup (Add_ s addr src pen now).2.addrMap addr.svc.toKey = some
      { addr := { addr with
          nTime := ((addr.nTime : Int) - (if addr.svc.net.host = src.host then 0 else pen)).toNat }
        nLastSuccess := 0
        nLastTry := 0
        nSuccesses := 0
        nAttempts := 0
        fInReconn := false
        source := src
        nRandomPos := (s.vRandom.length : Int) } ∧
    (∀ k2, k2 ≠ addr.svc.toKey →
      mlookup (Add_ s addr src pen now).2.addrMap k2 = mlookup s.addrMap k2) ∧
    (Add_ s addr src pen now).2.vRandom = s.vRandom ++ [addr.svc.toKey] ∧
    (Add_ s addr src pen now).2.newSet = sinsert s.newSet addr.svc.toKey ∧
    (Add_ s addr src pen now).2.reconnSet = s.reconnSet ∧
    (Add_ s addr src pen now).2.addrMap.length = s.addrMap.length + 1 := by
  simp only [Add_, Find, hr, Bool.true_eq_false, ite_false, hnone, Create, mlookup_mset_self]
  refine ⟨by trivial, by trivial, ?_, by trivial, by trivial, by trivial, ?_⟩
  · intro k2 hk2
    rw [mlookup_mset_ne _ _ hk2, mlookup_mset_ne _ _ hk2, mlookup_mset_ne _ _ hk2]
  · have hc1 : mcontains s.addrMap addr.svc.toKey = false := mcontains_false.mpr hnone
    have hc2 : mcontains (mset s.addrMap addr.svc.toKey
        { addr := addr
          nLastSuccess := 0
          nLastTry := 0
          nSuccesses := 0
          nAttempts := 0
          fInReconn := false
          source := src
          nRandomPos := -1 }) addr.svc.toKey = true :=
      mcontains_iff.mpr ⟨_, mlookup_mset_self ..⟩
    rw [length_mset_of_contains _ (mcontains_iff.mpr ⟨_, mlookup_mset_self ..⟩),
      length_mset_of_contains _ hc2, length_mset_of_not_contains _ hc1]

/-! ### Invariant preservation of the facade operations -/

theorem inv_add (s : AState) (addr : CAddressM) (src : CNetAddrM) (pen now : Int)
    (hInv : Inv s) : Inv (Add_ s addr src pen now).2 := by
  by_cases hr : addr.isRoutable = false
  · simp only [Add_, if_pos hr]
    exact hInv
  · cases he : mlookup s.addrMap addr.svc.toKey with
    | some e =>
      by_cases hc : addr.nTime ≠ 0 ∧ (e.addr.nTime = 0 ∨
          (e.addr.nTime : Int) < (addr.nTime : Int)
            - (if now - (addr.nTime : Int) < 24 * 60 * 60 then 60 * 60 else 24 * 60 * 60)
            - (if addr.svc.net.host = src.host then 0 else pen))
      · simp only [Add_, Find, if_neg hr, he, if_pos hc]
        exact inv_mset_same hInv he rfl rfl rfl
      · simp only [Add_, Find, if_neg hr, he, if_neg hc]
        exact inv_mset_same hInv he rfl rfl rfl
    | none =>
      simp only [Add_, Find, if_neg hr, he, Create, mset_mset]
      exact inv_create hInv he rfl rfl rfl

theorem inv_good (s : AState) (addr : CServiceM) (t : Int) (hInv : Inv s) :
    Inv (Good_ s addr t) := by
  cases he : Find s addr.toKey with
  | none =>
    simp only [Good_, he]
    exact hInv
  | some info =>
    by_cases hne : info.addr.svc.toKey ≠ addr.toKey
    · simp only [Good_, he, if_pos hne]
      exact hInv
    · have heq : info.addr.svc.toKey = addr.toKey := not_not.mp hne
      by_cases hf : info.fInReconn = true
      · simp only [Good_, he, if_neg hne, hf, ite_true]
        exact inv_mset_same hInv he rfl hf.symm rfl
      · have hf2 : info.fInReconn = false := by
          cases hbv : info.fInReconn with
          | false => rfl
          | true => exact absurd hbv hf
        simp only [Good_, he]
        rw [if_neg hne]
        simp only [hf2, Bool.false_eq_true, ite_false, heq]
        exact inv_good_flip hInv he hf2 rfl rfl rfl

theorem inv_attempt (s : AState) (addr : CServiceM) (cf : Bool) (t : Int) (hInv : Inv s) :
    Inv (Attempt_ s addr cf t) := by
  cases he : Find s addr.toKey with
  | none =>
    simp only [Attempt_, he]
    exact hInv
  | some info =>
    by_cases hne : info.addr.svc.toKey ≠ addr.toKey
    · simp only [Attempt_, he, if_pos hne]
      exact hInv
    · simp only [Attempt_, he, if_neg hne]
      exact inv_mset_same hInv he rfl rfl rfl

theorem inv_connected (s : AState) (addr : CServiceM) (t : Int) (hInv : Inv s) :
    Inv (Connected_ s addr t) := by
  cases he : Find s addr.toKey with
  | none =>
    simp only [Connected_, he]
    exact hInv
  | some info =>
    by_cases hne : info.addr.svc.toKey ≠ addr.toKey
    · simp only [Connected_, he, if_pos hne]
      exact hInv
    · by_cases ht : (20 * 60 : Int) < t - (info.addr.nTime : Int)
      · simp only [Connected_, he, if_neg hne, if_pos ht]
        exact inv_mset_same hInv he rfl rfl rfl
      · simp only [Connected_, he, if_neg hne, if_neg ht]
        exact hInv

theorem inv_setservices (s : AState) (addr : CServiceM) (sv : Nat) (hInv : Inv s) :
    Inv (SetServices_ s addr sv) := by
  cases he : Find s addr.toKey with
  | none =>
    simp only [SetServices_, he]
    exact hInv
  | some info =>
    by_cases hne : info.addr.svc.toKey ≠ addr.toKey
    · simp only [SetServices_, he, if_pos hne]
      exact hInv
    · simp only [SetServices_, he, if_neg hne]
      exact inv_mset_same hInv he rfl rfl rfl

/-! ### Nodup and size consequences of the invariant -/

theorem nodup_of_nth_inj {l : List Key}
    (h : ∀ p q k, nth l p = some k → nth l q = some k → p = q) : l.Nodup := by
  induction l with
  | nil => simp
  | cons a t ih =>
    rw [List.nodup_cons]
    constructor
    · intro hmem
      obtain ⟨q, hq⟩ := mem_nth hmem
      have h0 : nth (a :: t) 0 = some a := rfl
      have hq1 : nth (a :: t) (q + 1) = some a := hq
      have hz := h 0 (q + 1) a h0 hq1
      exact Nat.succ_ne_zero q hz.symm
    · apply ih
      intro p q k hp hq
      have hs := h (p + 1) (q + 1) k hp hq
      omega

theorem nodup_vRandom {s : AState} (hInv : Inv s) : s.vRandom.Nodup :=
  nodup_of_nth_inj (fun _ _ _ hp hq => I1r_nth_inj hInv.2.1 hp hq)

theorem size_eq_vRandom {s : AState} (hInv : Inv s) :
    s.addrMap.length = s.vRandom.length := by
  have hndk : (s.addrMap.map Prod.fst).Nodup := hInv.2.2.2.2.2.1
  have hndv : s.vRandom.Nodup := nodup_vRandom hInv
  have hmem : ∀ k, k ∈ s.addrMap.map Prod.fst ↔ k ∈ s.vRandom := by
    intro k
    constructor
    · intro h
      obtain ⟨e, he⟩ := mcontains_iff.mp (mcontains_of_mem_keys h)
      exact (hInv.2.2.1.2.1 (k, e) (mlookup_mem he)).1
    · intro h
      obtain ⟨e, he⟩ := mcontains_iff.mp (hInv.2.2.1.1 k h)
      exact mem_keys_of_lookup he
  have hfs : (s.addrMap.map Prod.fst).toFinset = s.vRandom.toFinset := by
    apply Finset.ext
    intro k
    simp only [List.mem_toFinset]
    exact hmem k
  have hc1 := List.toFinset_card_of_nodup hndk
  have hc2 := List.toFinset_card_of_nodup hndv
  have : (s.addrMap.map Prod.fst).length = s.vRandom.length := by
    rw [← hc1, ← hc2, hfs]
  simpa using this

/-! ### Delete: pop the tail and erase -/

/-- The tail phase of Delete: once the target key sits in the last
dense-array slot of an invariant-satisfying state, popping the vector,
erasing the map entry, and erasing the key from the set selected by the
flag (which matches its reconnect membership) preserves the invariant and
removes the key from every container. -/
theorem delete_tail (t : AState) (k : Key) (b : Bool) (hInv : Inv t)
    (hk : nth t.vRandom (t.vRandom.length - 1) = some k)
    (hb : b = true ↔ k ∈ t.reconnSet) :
    Inv { t with
          vRandom := popBack t.vRandom
          addrMap := merase t.addrMap k
          reconnSet := if b then serase t.reconnSet k else t.reconnSet
          newSet := if b then t.newSet else serase t.newSet k } ∧
    (merase t.addrMap k).length = t.addrMap.length - 1 ∧
    mlookup (merase t.addrMap k) k = none ∧
    k ∉ popBack t.vRandom ∧
    k ∉ (if b then serase t.reconnSet k else t.reconnSet : KSet) ∧
    k ∉ (if b then t.newSet else serase t.newSet k : KSet) := by
  obtain ⟨hI1, hI1r, hI2, hI3, hKC, hND⟩ := hInv
  have hq := nth_some_lt hk
  obtain ⟨eK, heK, hposK⟩ := I1r_lookup hI1r hk
  have hcontk : mcontains t.addrMap k = true := mcontains_iff.mpr ⟨eK, heK⟩
  have hnd2 : NodupKeys (merase t.addrMap k) := nodupKeys_merase hND.1 k
  have hnotmem : k ∉ popBack t.vRandom := by
    intro hc
    obtain ⟨q2, hq2lt, hq2⟩ := mem_popBack hc
    have := I1r_nth_inj hI1r hq2 hk
    omega
  have hmem_pop : ∀ k2 q2, nth t.vRandom q2 = some k2 → k2 ≠ k → k2 ∈ popBack t.vRandom := by
    intro k2 q2 hn hne
    have hlt := nth_some_lt hn
    have hqe : q2 ≠ t.vRandom.length - 1 := by
      intro hc
      rw [hc, hk] at hn
      injection hn with hkk
      exact hne hkk.symm
    have hlt2 : q2 < t.vRandom.length - 1 := by omega
    have : nth (popBack t.vRandom) q2 = some k2 := by
      rw [nth_popBack_lt hlt2]
      exact hn
    exact nth_mem this
  have hknew : b = false → k ∈ t.newSet := by
    intro hbf
    rcases (hI2.2.1 (k, eK) (mlookup_mem heK)).2 with h | h
    · exact h
    · rw [hbf] at hb
      exact absurd ((hb.mpr h).symm) (by simp)
  have hreconn_of : b = true → k ∈ t.reconnSet := hb.mp
  have hknew_not : b = true → k ∉ t.newSet := by
    intro hbt hc
    exact hI2.2.2.2.2 k hc (hb.mp hbt)
  have hmer_ne : ∀ k2, k2 ≠ k → mcontains (merase t.addrMap k) k2 = mcontains t.addrMap k2 := by
    intro k2 hne
    unfold mcontains
    rw [mlookup_merase_ne _ hne]
  refine ⟨⟨?_, ?_, ⟨?_, ?_, ?_, ?_, ?_⟩, ?_, ?_, ?_⟩,
    length_merase hND.1 hcontk, mlookup_merase_self hND.1 k, hnotmem, ?_, ?_⟩
  · -- I1
    intro kv hmem
    have hl : mlookup (merase t.addrMap k) kv.1 = some kv.2 := mem_mlookup hnd2 hmem
    have hne : kv.1 ≠ k := by
      intro hc
      rw [hc, mlookup_merase_self hND.1 k] at hl
      cases hl
    rw [mlookup_merase_ne _ hne] at hl
    obtain ⟨hge, hnth⟩ := hI1 (kv.1, kv.2) (mlookup_mem hl)
    have hnth2 : nth t.vRandom kv.2.nRandomPos.toNat = some kv.1 := hnth
    have hlt : kv.2.nRandomPos.toNat < t.vRandom.length := nth_some_lt hnth2
    have hqe : kv.2.nRandomPos.toNat ≠ t.vRandom.length - 1 := by
      intro hc
      rw [hc, hk] at hnth2
      injection hnth2 with hkk
      exact hne hkk.symm
    have hlt2 : kv.2.nRandomPos.toNat < t.vRandom.length - 1 := by omega
    refine ⟨hge, ?_⟩
    show nth (popBack t.vRandom) kv.2.nRandomPos.toNat = some kv.1
    rw [nth_popBack_lt hlt2]
    exact hnth2
  · -- I1r
    intro p hp
    have hpl : p < t.vRandom.length - 1 := by
      have := List.mem_range.mp hp
      simpa [length_popBack] using this
    show ((nth (popBack t.vRandom) p).bind fun k2 => (mlookup (merase t.addrMap k) k2).map
      fun e3 => e3.nRandomPos) = some (p : Int)
    rw [nth_popBack_lt hpl]
    have hplt : p < t.vRandom.length := by omega
    obtain ⟨kp, hkp⟩ := nth_lt_length hplt
    have hkne : kp ≠ k := by
      intro hc
      rw [hc] at hkp
      have := I1r_nth_inj hI1r hkp hk
      omega
    rw [hkp]
    simp only [Option.some_bind, mlookup_merase_ne _ hkne]
    obtain ⟨ep, hep, hposp⟩ := I1r_lookup hI1r hkp
    rw [hep]
    simp [hposp]
  · -- I2 part 1
    intro k2 hk2
    obtain ⟨q2, hq2⟩ := mem_nth hk2
    have hlt := nth_some_lt hq2
    rw [length_popBack] at hlt
    have hq2v : nth t.vRandom q2 = some k2 := by
      rw [← nth_popBack_lt hlt]
      exact hq2
    have hne : k2 ≠ k := by
      intro hc
      rw [hc] at hq2
      exact hnotmem (nth_mem hq2)
    rw [hmer_ne k2 hne]
    exact hI2.1 k2 (nth_mem hq2v)
  · -- I2 part 2
    intro kv hmem
    have hl : mlookup (merase t.addrMap k) kv.1 = some kv.2 := mem_mlookup hnd2 hmem
    have hne : kv.1 ≠ k := by
      intro hc
      rw [hc, mlookup_merase_self hND.1 k] at hl
      cases hl
    rw [mlookup_merase_ne _ hne] at hl
    obtain ⟨hge, hnth⟩ := hI1 (kv.1, kv.2) (mlookup_mem hl)
    obtain ⟨_, hsets⟩ := hI2.2.1 (kv.1, kv.2) (mlookup_mem hl)
    refine ⟨hmem_pop kv.1 _ hnth hne, ?_⟩
    cases b with
    | true =>
      rcases hsets with h | h
      · exact Or.inl h
      · exact Or.inr ((mem_serase hND.2.2).mpr ⟨h, hne⟩)
    | false =>
      rcases hsets with h | h
      · exact Or.inl ((mem_serase hND.2.1).mpr ⟨h, hne⟩)
      · exact Or.inr h
  · -- I2 part 3: new set members are stored
    intro k2 hk2
    cases b with
    | true =>
      have hne : k2 ≠ k := by
        intro hc
        rw [hc] at hk2
        exact hknew_not rfl hk2
      rw [hmer_ne k2 hne]
      exact hI2.2.2.1 k2 hk2
    | false =>
      obtain ⟨hin, hne⟩ := (mem_serase hND.2.1).mp hk2
      rw [hmer_ne k2 hne]
      exact hI2.2.2.1 k2 hin
  · -- I2 part 4: reconnect set members are stored
    intro k2 hk2
    cases b with
    | true =>
      obtain ⟨hin, hne⟩ := (mem_serase hND.2.2).mp hk2
      rw [hmer_ne k2 hne]
      exact hI2.2.2.2.1 k2 hin
    | false =>
      have hne : k2 ≠ k := by
        intro hc
        rw [hc] at hk2
        exact absurd ((hb.mpr hk2).symm) (by simp)
      rw [hmer_ne k2 hne]
      exact hI2.2.2.2.1 k2 hk2
  · -- I2 part 5: disjointness
    intro k2 hk2 hc
    cases b with
    | true =>
      exact hI2.2.2.2.2 k2 hk2 (serase_subset hc)
    | false =>
      exact hI2.2.2.2.2 k2 (serase_subset hk2) hc
  · -- I3
    intro kv hmem
    have hl : mlookup (merase t.addrMap k) kv.1 = some kv.2 := mem_mlookup hnd2 hmem
    have hne : kv.1 ≠ k := by
      intro hc
      rw [hc, mlookup_merase_self hND.1 k] at hl
      cases hl
    rw [mlookup_merase_ne _ hne] at hl
    have horig := hI3 (kv.1, kv.2) (mlookup_mem hl)
    cases b with
    | true =>
      rw [horig]
      constructor
      · intro h
        exact (mem_serase hND.2.2).mpr ⟨h, hne⟩
      · intro h
        exact ((mem_serase hND.2.2).mp h).1
    | false => exact horig
  · -- KeyCoherent
    intro kv hmem
    have hl : mlookup (merase t.addrMap k) kv.1 = some kv.2 := mem_mlookup hnd2 hmem
    have hne : kv.1 ≠ k := by
      intro hc
      rw [hc, mlookup_merase_self hND.1 k] at hl
      cases hl
    rw [mlookup_merase_ne _ hne] at hl
    exact hKC (kv.1, kv.2) (mlookup_mem hl)
  · -- StateNodup
    refine ⟨nodupKeys_merase hND.1 k, ?_, ?_⟩
    · cases b with
      | true => exact hND.2.1
      | false => exact nodup_serase hND.2.1 k
    · cases b with
      | true => exact nodup_serase hND.2.2 k
      | false => exact hND.2.2
  · -- k not in the resulting reconnect set
    cases b with
    | true =>
      intro hc
      exact ((mem_serase hND.2.2).mp hc).2 rfl
    | false =>
      intro hc
      exact absurd ((hb.mpr hc).symm) (by simp)
  · -- k not in the resulting new set
    cases b with
    | true =>
      intro hc
      exact hknew_not rfl hc
    | false =>
      intro hc
      exact ((mem_serase hND.2.1).mp hc).2 rfl

/-- Full description of Delete on a stored key of an invariant-satisfying
state: it succeeds, the map shrinks by one, the key disappears from the
map, the dense array and both sets, the invariant still holds, and every
remaining entry still finds its key at its nRandomPos. -/
theorem delete_spec (s : AState) (k : Key) (e : CPAddrM) (hInv : Inv s)
    (he : mlookup s.addrMap k = some e) :
    ∃ s2, Delete s k = some s2 ∧ Inv s2 ∧
      s2.addrMap.length = s.addrMap.length - 1 ∧
      mlookup s2.addrMap k = none ∧
      k ∉ s2.vRandom ∧ k ∉ s2.newSet ∧ k ∉ s2.reconnSet ∧
      (∀ k2 e2, mlookup s2.addrMap k2 = some e2 →
        nth s2.vRandom e2.nRandomPos.toNat = some k2) := by
  obtain ⟨hge, hnth⟩ := hInv.1 (k, e) (mlookup_mem he)
  have hkc : e.addr.svc.toKey = k := hInv.2.2.2.2.1 (k, e) (mlookup_mem he)
  have hplt := nth_some_lt hnth
  have hq : s.vRandom.length - 1 < s.vRandom.length := by omega
  obtain ⟨s1, hsw, hInv1, hrec1, hnew1, hlen1, hser1, hoth1, hp1, hp2⟩ :=
    swap_spec s e.nRandomPos.toNat (s.vRandom.length - 1) hInv hplt hq
  have hk1 : nth s1.vRandom (s1.vRandom.length - 1) = some k := by
    rw [hlen1, hp2]
    exact hnth
  have hb : e.fInReconn = true ↔ k ∈ s1.reconnSet := by
    rw [hrec1]
    exact hInv.2.2.2.1 (k, e) (mlookup_mem he)
  obtain ⟨hInv2, hlen2, hlook2, hvr2, hrc2, hnw2⟩ := delete_tail s1 k e.fInReconn hInv1 hk1 hb
  refine ⟨_, ?_, hInv2, ?_, hlook2, hvr2, hnw2, hrc2, ?_⟩
  · show Delete s k = _
    simp only [Delete, he, usize, hsw, hkc]
  · have hlm : s1.addrMap.length = s.addrMap.length := by
      have h1 := size_eq_vRandom hInv1
      have h2 := size_eq_vRandom hInv
      rw [h1, h2, hlen1]
    rw [show ({ s1 with
          vRandom := popBack s1.vRandom
          addrMap := merase s1.addrMap k
          reconnSet := if e.fInReconn then serase s1.reconnSet k else s1.reconnSet
          newSet := if e.fInReconn then s1.newSet else serase s1.newSet k } : AState).addrMap
        = merase s1.addrMap k from rfl, hlen2, hlm]
  · intro k2 e2 hl2
    have hmem2 := mlookup_mem hl2
    exact (hInv2.1 (k2, e2) hmem2).2

/-! ### GetAddr: the fused shuffle-and-sample loop -/

theorem ser_lookup_transport {m1 m0 : AMap}
    (hser : ∀ k, (mlookup m1 k).map serCPAddr = (mlookup m0 k).map serCPAddr)
    {k : Key} {e : CPAddrM} (he : mlookup m1 k = some e) :
    ∃ e0, mlookup m0 k = some e0 ∧ e0.addr = e.addr := by
  have h := hser k
  rw [he] at h
  cases hl : mlookup m0 k with
  | none => rw [hl] at h; simp at h
  | some e0 =>
    rw [hl] at h
    simp only [Option.map_some'] at h
    have h2 : serCPAddr e = serCPAddr e0 := by injection h
    exact ⟨e0, rfl, (congrArg SerCPAddr.base h2).symm⟩

/-- The GetAddr loop preserves the invariant, returns at most max of the
accumulator length and the target count, and every returned record is the
CAddress of an entry stored in the starting map. -/
theorem getAddrGo_spec (rnd : Nat → Nat) (nNodes : Nat) (now : Int) :
    ∀ (fuel n : Nat) (s : AState) (acc : List CAddressM), Inv s →
      Inv (getAddrGo rnd nNodes now fuel n s acc).2 ∧
      (getAddrGo rnd nNodes now fuel n s acc).1.length ≤ max acc.length nNodes ∧
      (∀ a ∈ (getAddrGo rnd nNodes now fuel n s acc).1,
        a ∈ acc ∨ ∃ k e, mlookup s.addrMap k = some e ∧ e.addr = a) := by
  intro fuel
  induction fuel with
  | zero =>
    intro n s acc hInv
    exact ⟨hInv, le_max_left _ _, fun a ha => Or.inl ha⟩
  | succ fuel ih =>
    intro n s acc hInv
    by_cases hn : n < s.vRandom.length
    · by_cases hacc : nNodes ≤ acc.length
      · simp only [getAddrGo, if_pos hn, if_pos hacc]
        exact ⟨hInv, le_max_left _ _, fun a ha => Or.inl ha⟩
      · have hlen_pos : 0 < s.vRandom.length - n := by omega
        have hrp : RandomIntM (rnd n) (s.vRandom.length - n) + n < s.vRandom.length := by
          have := Nat.mod_lt (rnd n) hlen_pos
          unfold RandomIntM
          omega
        obtain ⟨s1, hsw, hInv1, hrec1, hnew1, hlen1, hser1, _, _, _⟩ :=
          swap_spec s n (RandomIntM (rnd n) (s.vRandom.length - n) + n) hInv hn hrp
        have hn1 : n < s1.vRandom.length := by rw [hlen1]; exact hn
        obtain ⟨key, hkey⟩ := nth_lt_length hn1
        have hcont : mcontains s1.addrMap key = true := hInv1.2.2.1.1 key (nth_mem hkey)
        obtain ⟨ai, hai⟩ := mcontains_iff.mp hcont
        have ihres := ih (n + 1) s1 (acc ++ [ai.addr]) hInv1
        simp only [getAddrGo, if_pos hn, if_neg hacc, hsw, hkey, msubGet, hai,
          CPAddrM.IsTerrible, Bool.false_eq_true, ite_false]
        rw [show (AState.mk s1.addrMap s1.reconnSet s1.newSet s1.vRandom) = s1 from rfl]
        refine ⟨ihres.1, ?_, ?_⟩
        · have hb := ihres.2.1
          have hlenacc : (acc ++ [ai.addr]).length = acc.length + 1 := by simp
          rw [hlenacc] at hb
          omega
        · intro a ha
          rcases ihres.2.2 a ha with h | ⟨k2, e2, he2, haddr⟩
          · rcases List.mem_append.mp h with h2 | h2
            · exact Or.inl h2
            · have haa : a = ai.addr := by simpa using h2
              obtain ⟨e0, he0, haddr0⟩ := ser_lookup_transport hser1 hai
              exact Or.inr ⟨key, e0, he0, by rw [haddr0, haa]⟩
          · obtain ⟨e0, he0, haddr0⟩ := ser_lookup_transport hser1 he2
            exact Or.inr ⟨k2, e0, he0, by rw [haddr0, haddr]⟩
    · simp only [getAddrGo, if_neg hn]
      exact ⟨hInv, le_max_left _ _, fun a ha => Or.inl ha⟩

theorem inv_getaddr (s : AState) (rnd : Nat → Nat) (now : Int) (hInv : Inv s) :
    Inv (GetAddr_ s rnd now).2 :=
  (getAddrGo_spec rnd
    (if ADDRMAN_GETADDR_MAX < ADDRMAN_GETADDR_MAX_PCT * s.vRandom.length / 100
     then ADDRMAN_GETADDR_MAX else ADDRMAN_GETADDR_MAX_PCT * s.vRandom.length / 100)
    now s.vRandom.length 0 s [] hInv).1

/-! ### Sequences of facade operations -/

theorem runOps_inv : ∀ (ops : List Op) (s s2 : AState),
    runOps ops s = some s2 → Inv s → Inv s2 := by
  intro ops
  induction ops with
  | nil =>
    intro s s2 h hInv
    have h2 : s = s2 := by
      simpa [runOps] using h
    rw [← h2]
    exact hInv
  | cons op rest ih =>
    intro s s2 h hInv
    cases hap : applyOp op s with
    | none =>
      rw [runOps, hap] at h
      cases h
    | some s1 =>
      rw [runOps, hap] at h
      refine ih s1 s2 h ?_
      cases op with
      | add a src p n =>
        have hs1 : s1 = (Add_ s a src p n).2 := by
          have := hap
          simp only [applyOp] at this
          injection this with h3
          exact h3.symm
        rw [hs1]
        exact inv_add s a src p n hInv
      | good a t =>
        have hs1 : s1 = Good_ s a t := by
          have := hap
          simp only [applyOp] at this
          injection this with h3
          exact h3.symm
        rw [hs1]
        exact inv_good s a t hInv
      | attempt a c t =>
        have hs1 : s1 = Attempt_ s a c t := by
          have := hap
          simp only [applyOp] at this
          injection this with h3
          exact h3.symm
        rw [hs1]
        exact inv_attempt s a c t hInv
      | del k =>
        have hdel : Delete s k = some s1 := hap
        cases hl : mlookup s.addrMap k with
        | none =>
          rw [Delete, hl] at hdel
          cases hdel
        | some e =>
          obtain ⟨s3, hd3, hInv3, _⟩ := delete_spec s k e hInv hl
          rw [hd3] at hdel
          injection hdel with h3
          rw [← h3]
          exact hInv3
      | getaddr r n =>
        have hs1 : s1 = (GetAddr_ s r n).2 := by
          have := hap
          simp only [applyOp] at this
          injection this with h3
          exact h3.symm
        rw [hs1]
        exact inv_getaddr s r n hInv

/-! ### Claim C2 -/

/-- C2: the spec invariants I1 (the dense array holds each stored key at
its entry's nRandomPos) and I2 (array keys, map keys and the disjoint
union of the two membership sets coincide) hold in every state reached
from the empty table by any finite sequence of Add, Good, Attempt, Delete
and GetAddr calls that completes without an assertion failure. -/
theorem c2_invariants_reachable (ops : List Op) (s : AState)
    (h : runOps ops emptyState = some s) : I1 s ∧ I2 s := by
  have hInv : Inv emptyState := by decide
  have h2 := runOps_inv ops emptyState s h hInv
  exact ⟨h2.1, h2.2.2.1⟩

/-- C2 witness: the invariants at the concrete state reached by one Add. -/
theorem c2_invariants_reachable_witness : I1 sOne ∧ I2 sOne :=
  c2_invariants_reachable [Op.add addr11 srcA 0 0] sOne (by decide)

/-! ### Claim C1 -/

/-- C1 counterexample: a state satisfying I1 and I2 (but not I3: the
entry's fInReconn flag is clear while its key sits in the reconnect set)
on which Delete removes the key from the map and the dense array but
leaves it in the reconnect membership set, contradicting the claim that
I1 and I2 alone suffice. -/
theorem c1_counterexample :
    I1 sBad ∧ I2 sBad ∧ sizeM sBad = 1 ∧
    Delete sBad (1, 1) = some (AState.mk [] [(1, 1)] [] []) ∧
    (1, 1) ∈ (AState.mk [] [(1, 1)] [] []).reconnSet := by
  decide

/-- C1 as amended: on a table satisfying the full representation
invariant (I1, I2 and additionally I3, key coherence and
duplicate-freedom, all reachability invariants), deleting a stored key
shrinks the size by one, removes the key from the map, the dense array
and both membership sets, and every remaining key is still found in the
dense array at its entry's nRandomPos. -/
theorem c1_delete_swap_remove (s : AState) (k : Key) (e : CPAddrM)
    (hInv : Inv s) (he : mlookup s.addrMap k = some e) :
    ∃ s2, Delete s k = some s2 ∧
      sizeM s2 = sizeM s - 1 ∧
      mlookup s2.addrMap k = none ∧
      k ∉ s2.vRandom ∧ k ∉ s2.newSet ∧ k ∉ s2.reconnSet ∧
      (∀ k2 e2, mlookup s2.addrMap k2 = some e2 →
        nth s2.vRandom e2.nRandomPos.toNat = some k2) := by
  obtain ⟨s2, h1, _, h3, h4, h5, h6, h7, h8⟩ := delete_spec s k e hInv he
  exact ⟨s2, h1, h3, h4, h5, h6, h7, h8⟩

/-- C1 witness: the amended claim applied to the two-entry table. -/
theorem c1_delete_swap_remove_witness :
    ∃ s2, Delete sTwo (1, 1) = some s2 ∧
      sizeM s2 = sizeM sTwo - 1 ∧
      mlookup s2.addrMap (1, 1) = none ∧
      (1, 1) ∉ s2.vRandom ∧ (1, 1) ∉ s2.newSet ∧ (1, 1) ∉ s2.reconnSet ∧
      (∀ k2 e2, mlookup s2.addrMap k2 = some e2 →
        nth s2.vRandom e2.nRandomPos.toNat = some k2) :=
  c1_delete_swap_remove sTwo (1, 1) entryR (by decide) (by decide)

/-! ### Claim C8 -/

/-- C8: on any table satisfying the representation invariant, GetAddr
returns at most min(23 percent of the table size, 2500) records, every
returned record is a copy of the CAddress of an entry stored in the
table, and no returned record copies an entry that IsTerrible at the
sampling time. -/
theorem c8_getaddr_sampling (s : AState) (rnd : Nat → Nat) (now : Int) (hInv : Inv s) :
    (GetAddr_ s rnd now).1.length ≤
      min (ADDRMAN_GETADDR_MAX_PCT * sizeM s / 100) ADDRMAN_GETADDR_MAX ∧
    (∀ a ∈ (GetAddr_ s rnd now).1, ∃ k e, mlookup s.addrMap k = some e ∧ e.addr = a ∧
      e.IsTerrible now = false) := by
  have hspec := getAddrGo_spec rnd
    (if ADDRMAN_GETADDR_MAX < ADDRMAN_GETADDR_MAX_PCT * s.vRandom.length / 100
     then ADDRMAN_GETADDR_MAX else ADDRMAN_GETADDR_MAX_PCT * s.vRandom.length / 100)
    now s.vRandom.length 0 s [] hInv
  have hsz : sizeM s = s.vRandom.length := size_eq_vRandom hInv
  constructor
  · have hb := hspec.2.1
    rw [hsz]
    have hm : (if ADDRMAN_GETADDR_MAX < ADDRMAN_GETADDR_MAX_PCT * s.vRandom.length / 100
        then ADDRMAN_GETADDR_MAX else ADDRMAN_GETADDR_MAX_PCT * s.vRandom.length / 100)
        = min (ADDRMAN_GETADDR_MAX_PCT * s.vRandom.length / 100) ADDRMAN_GETADDR_MAX := by
      by_cases hcmp : ADDRMAN_GETADDR_MAX < ADDRMAN_GETADDR_MAX_PCT * s.vRandom.length / 100
      · rw [if_pos hcmp, Nat.min_eq_right (le_of_lt hcmp)]
      · rw [if_neg hcmp, Nat.min_eq_left (not_lt.mp hcmp)]
    rw [← hm]
    simpa using hb
  · intro a ha
    rcases hspec.2.2 a ha with h | ⟨k, e, he, haddr⟩
    · simp at h
    · exact ⟨k, e, he, haddr, rfl⟩

/-- C8 witness: the sampling bound at the concrete two-entry table. -/
theorem c8_getaddr_sampling_witness :
    (GetAddr_ sTwo (fun _ => 0) 0).1.length ≤
      min (ADDRMAN_GETADDR_MAX_PCT * sizeM sTwo / 100) ADDRMAN_GETADDR_MAX ∧
    (∀ a ∈ (GetAddr_ sTwo (fun _ => 0) 0).1, ∃ k e, mlookup sTwo.addrMap k = some e ∧
      e.addr = a ∧ e.IsTerrible 0 = false) :=
  c8_getaddr_sampling sTwo (fun _ => 0) 0 (by decide)

/-! ### Claim C3 -/

/-- C3 counterexample: the claim predicts that the stored nTime of key
(1, 1) is recomputed, because the incoming timestamp 103000 exceeds the
stored 99000 by more than the update interval 3600 that the claim derives
from now minus storedTime being under 86400; yet the code leaves the
stored nTime at 99000 (the source compares against the incoming timestamp
minus the interval minus the penalty, paddrman.cpp line 82), which also
differs from the claimed new value max(0, 103000 - 10000). -/
theorem c3_counterexample :
    mlookup sTime.addrMap (1, 1) = some entryT ∧
    entryT.addr.nTime = 99000 ∧
    (100000 : Int) - 99000 < 86400 ∧
    (3600 : Int) < 103000 - 99000 ∧
    (mlookup (Add_ sTime addrT srcA 10000 100000).2.addrMap (1, 1)).map
      (fun e => e.addr.nTime) = some 99000 ∧
    ((103000 : Int) - 10000).toNat ≠ 99000 := by
  decide

/-- C3 as amended: on an existing key the stored nTime is recomputed to
max(0, incoming nTime - effective penalty) iff the incoming nTime is
nonzero and the stored nTime is zero or smaller than the incoming nTime
minus the update interval minus the effective penalty, where the interval
is 3600 seconds when now minus the incoming nTime is below 86400 seconds
and 86400 seconds otherwise, and the effective penalty is zero for a
self-announcement; meanwhile the incoming service bits are ORed in. -/
theorem c3_time_update_rule (s : AState) (addr : CAddressM) (src : CNetAddrM)
    (pen now : Int) (e : CPAddrM)
    (hr : addr.isRoutable = true)
    (he : mlookup s.addrMap addr.svc.toKey = some e) :
    mlookup (Add_ s addr src pen now).2.addrMap addr.svc.toKey =
      some { e with addr :=
        { e.addr with
          nTime := if addr.nTime ≠ 0 ∧ (e.addr.nTime = 0 ∨
              (e.addr.nTime : Int) < (addr.nTime : Int)
                - (if now - (addr.nTime : Int) < 24 * 60 * 60 then 60 * 60 else 24 * 60 * 60)
                - (if addr.svc.net.host = src.host then 0 else pen))
            then ((addr.nTime : Int) - (if addr.svc.net.host = src.host then 0 else pen)).toNat
            else e.addr.nTime
          nServices := Nat.lor e.addr.nServices addr.nServices } } :=
  (add_existing s addr src pen now e hr he).2.1

/-- C3 witness: the amended rule applied to the counterexample input. -/
theorem c3_time_update_rule_witness :
    mlookup (Add_ sTime addrT srcA 10000 100000).2.addrMap addrT.svc.toKey =
      some { entryT with addr :=
        { entryT.addr with
          nTime := if addrT.nTime ≠ 0 ∧ (entryT.addr.nTime = 0 ∨
              (entryT.addr.nTime : Int) < (addrT.nTime : Int)
                - (if (100000 : Int) - (addrT.nTime : Int) < 24 * 60 * 60 then 60 * 60 else 24 * 60 * 60)
                - (if addrT.svc.net.host = srcA.host then 0 else 10000))
            then ((addrT.nTime : Int) - (if addrT.svc.net.host = srcA.host then 0 else 10000)).toNat
            else entryT.addr.nTime
          nServices := Nat.lor entryT.addr.nServices addrT.nServices } } :=
  c3_time_update_rule sTime addrT srcA 10000 100000 entryT (by decide) (by decide)

/-! ### Claim C4 -/

/-- C4: Clear() does not return the table to its just-constructed state.
On the table holding the single added key (1, 1), Clear empties the dense
array, the reconnect set and the map, but leaves the key in the new set
(paddrman.h lines 242 to 248 clear only vRandom, reconnSet and addrMap),
so the resulting state differs from the just-constructed one. -/
theorem c4_clear_keeps_newSet :
    (Clear sOne).vRandom = [] ∧
    (Clear sOne).reconnSet = [] ∧
    (Clear sOne).addrMap = [] ∧
    (Clear sOne).newSet = [(1, 1)] ∧
    Clear sOne ≠ emptyState := by
  decide

/-! ### Claim C5 -/

/-- C5 counterexample: Create on a key that is already stored does not
fail; it silently replaces the stored entry (the recorded successes drop
from 5 to 0) and appends the key to the dense array a second time, leaving
the map size unchanged. -/
theorem c5_counterexample :
    mcontains sDup.addrMap (1, 1) = true ∧
    mlookup sDup.addrMap (1, 1) = some entry11 ∧
    entry11.nSuccesses = 5 ∧
    (mlookup (Create sDup addrDup srcA).2.addrMap (1, 1)).map (fun e => e.nSuccesses)
      = some 0 ∧
    (Create sDup addrDup srcA).2.vRandom = [(1, 1), (1, 1)] ∧
    sizeM (Create sDup addrDup srcA).2 = sizeM sDup := by
  decide

/-- C5 as amended: Create never signals a duplicate key.  For every state
it stores a fresh entry under the key (overwriting any existing one),
appends the key to the dense array (duplicating it when it was already
present), sets the entry's nRandomPos to the new last index, and inserts
the key into the new set; the map grows only when the key was absent. -/
theorem c5_create_spec (s : AState) (addr : CAddressM) (src : CNetAddrM) :
    mlookup (Create s addr src).2.addrMap addr.svc.toKey = some
      { addr := addr
        nLastSuccess := 0
        nLastTry := 0
        nSuccesses := 0
        nAttempts := 0
        fInReconn := false
        source := src
        nRandomPos := (s.vRandom.length : Int) } ∧
    (Create s addr src).2.vRandom = s.vRandom ++ [addr.svc.toKey] ∧
    (Create s addr src).2.newSet = sinsert s.newSet addr.svc.toKey ∧
    (Create s addr src).2.reconnSet = s.reconnSet ∧
    (∀ k2, k2 ≠ addr.svc.toKey →
      mlookup (Create s addr src).2.addrMap k2 = mlookup s.addrMap k2) ∧
    (mcontains s.addrMap addr.svc.toKey = false →
      (Create s addr src).2.addrMap.length = s.addrMap.length + 1) ∧
    (mcontains s.addrMap addr.svc.toKey = true →
      (Create s addr src).2.addrMap.length = s.addrMap.length) := by
  simp only [Create, mlookup_mset_self]
  refine ⟨by trivial, by trivial, by trivial, by trivial, ?_, ?_, ?_⟩
  · intro k2 hk2
    rw [mlookup_mset_ne _ _ hk2, mlookup_mset_ne _ _ hk2]
  · intro h
    rw [length_mset_of_contains _ (mcontains_iff.mpr ⟨_, mlookup_mset_self ..⟩),
      length_mset_of_not_contains _ h]
  · intro h
    rw [length_mset_of_contains _ (mcontains_iff.mpr ⟨_, mlookup_mset_self ..⟩),
      length_mset_of_contains _ h]

/-- C5 witness: the amended Create contract applied at a concrete state
whose key is absent. -/
theorem c5_create_spec_witness :
    mcontains emptyState.addrMap addr11.svc.toKey = false ∧
    mlookup (Create emptyState addr11 srcA).2.addrMap addr11.svc.toKey = some
      { addr := addr11
        nLastSuccess := 0
        nLastTry := 0
        nSuccesses := 0
        nAttempts := 0
        fInReconn := false
        source := srcA
        nRandomPos := (0 : Int) } ∧
    (Create emptyState addr11 srcA).2.addrMap.length = 1 :=
  ⟨by decide,
   (c5_create_spec emptyState addr11 srcA).1,
   (c5_create_spec emptyState addr11 srcA).2.2.2.2.2.1 (by decide)⟩

/-! ### Claim C7 -/

/-- C7: on an empty table, Add with a routable record returns true, a
second Add of the same record (identical, hence non-increasing, timestamp)
returns false, and the stored service bits equal the union of the bits of
the two calls; in general, Add on an existing key whose incoming record
carries no timestamp or a timestamp not exceeding the stored one returns
false while still ORing the incoming service bits into the stored ones. -/
theorem c7_add_idempotent :
    (∀ (r : CAddressM) (src : CNetAddrM) (p1 n1 p2 n2 : Int), r.isRoutable = true →
      (Add_ emptyState r src p1 n1).1 = true ∧
      (Add_ (Add_ emptyState r src p1 n1).2 r src p2 n2).1 = false ∧
      (mlookup (Add_ (Add_ emptyState r src p1 n1).2 r src p2 n2).2.addrMap r.svc.toKey).map
        (fun e => e.addr.nServices) = some (Nat.lor r.nServices r.nServices)) ∧
    (∀ (s : AState) (r : CAddressM) (src : CNetAddrM) (p n : Int) (e : CPAddrM),
      r.isRoutable = true →
      mlookup s.addrMap r.svc.toKey = some e →
      (r.nTime = 0 ∨ (e.addr.nTime ≠ 0 ∧ r.nTime ≤ e.addr.nTime)) →
      (Add_ s r src p n).1 = false ∧
      (mlookup (Add_ s r src p n).2.addrMap r.svc.toKey).map (fun e2 => e2.addr.nServices)
        = some (Nat.lor e.addr.nServices r.nServices)) := by
  constructor
  · intro r src p1 n1 p2 n2 hr
    obtain ⟨h1, h2, _⟩ := add_fresh emptyState r src p1 n1 hr (by simp [emptyState, mlookup])
    obtain ⟨h3, h4, _⟩ := add_existing (Add_ emptyState r src p1 n1).2 r src p2 n2 _ hr h2
    refine ⟨h1, h3, ?_⟩
    rw [h4]
    rfl
  · intro s r src p n e hr he _
    obtain ⟨h1, h2, _⟩ := add_existing s r src p n e hr he
    refine ⟨h1, ?_⟩
    rw [h2]
    rfl

/-! ### Snapshot queries: GetReconns and GetNew -/

/-- When every key of the iterated set is stored with fInReconn true, the
GetReconns loop neither mutates the state nor skips an entry: it returns
the stored entries in set order. -/
theorem getReconnsGo_spec (ks : KSet) (s : AState) (acc : List CPAddrM)
    (h : ∀ k ∈ ks, (mlookup s.addrMap k).map (fun e => e.fInReconn) = some true) :
    (getReconnsGo ks s acc).2 = s ∧
    (getReconnsGo ks s acc).1 = acc ++ ks.filterMap (fun k => mlookup s.addrMap k) := by
  induction ks generalizing acc with
  | nil => exact ⟨rfl, by simp [getReconnsGo]⟩
  | cons k rest ih =>
    have hk := h k (List.mem_cons_self ..)
    obtain ⟨e, he, hf⟩ : ∃ e, mlookup s.addrMap k = some e ∧ e.fInReconn = true := by
      cases hl : mlookup s.addrMap k with
      | none => simp [hl] at hk
      | some e => exact ⟨e, rfl, by simpa [hl] using hk⟩
    have hrest : ∀ k2 ∈ rest, (mlookup s.addrMap k2).map (fun e2 => e2.fInReconn) = some true :=
      fun k2 hk2 => h k2 (List.mem_cons_of_mem _ hk2)
    have ihe := ih (acc ++ [e]) hrest
    simp only [getReconnsGo, msubGet, he, hf, Bool.true_eq_false, ite_false]
    refine ⟨ihe.1, ?_⟩
    rw [ihe.2, List.filterMap_cons, he]
    simp

/-- When every key of the iterated set is stored with fInReconn false, the
GetNew loop neither mutates the state nor skips an entry. -/
theorem getNewGo_spec (ks : KSet) (s : AState) (acc : List CPAddrM)
    (h : ∀ k ∈ ks, (mlookup s.addrMap k).map (fun e => e.fInReconn) = some false) :
    (getNewGo ks s acc).2 = s ∧
    (getNewGo ks s acc).1 = acc ++ ks.filterMap (fun k => mlookup s.addrMap k) := by
  induction ks generalizing acc with
  | nil => exact ⟨rfl, by simp [getNewGo]⟩
  | cons k rest ih =>
    have hk := h k (List.mem_cons_self ..)
    obtain ⟨e, he, hf⟩ : ∃ e, mlookup s.addrMap k = some e ∧ e.fInReconn = false := by
      cases hl : mlookup s.addrMap k with
      | none => simp [hl] at hk
      | some e => exact ⟨e, rfl, by simpa [hl] using hk⟩
    have hrest : ∀ k2 ∈ rest, (mlookup s.addrMap k2).map (fun e2 => e2.fInReconn) = some false :=
      fun k2 hk2 => h k2 (List.mem_cons_of_mem _ hk2)
    have ihe := ih (acc ++ [e]) hrest
    simp only [getNewGo, msubGet, he, hf, Bool.false_eq_true, ite_false]
    refine ⟨ihe.1, ?_⟩
    rw [ihe.2, List.filterMap_cons, he]
    simp

/-! ### Claim C10 -/

/-- C10: under the precondition that every reconnect-set key maps to a
stored entry with fInReconn true and every new-set key to a stored entry
with fInReconn false (the I2 and I3 fragment), GetReconns and GetNew leave
the whole table state unchanged: no entry is created, removed or mutated
in the map, dense array, or either set. -/
theorem c10_snapshot_frame (s : AState) (h : SetsCoherent s) :
    (GetReconns s).2 = s ∧ (GetNew s).2 = s :=
  ⟨(getReconnsGo_spec s.reconnSet s [] h.1).1, (getNewGo_spec s.newSet s [] h.2).1⟩

/-- C10 witness: the frame property at a concrete two-entry table. -/
theorem c10_snapshot_frame_witness :
    (GetReconns sTwo).2 = sTwo ∧ (GetNew sTwo).2 = sTwo :=
  c10_snapshot_frame sTwo (by decide)

/-! ### Claim C6 -/

/-- The preserved configuration of the monotonicity argument: the key is
stored with fInReconn set, sits in the reconnect set and not in the new
set. -/
def ReconnLocked (s : AState) (k : Key) : Prop :=
  (mlookup s.addrMap k).map (fun e => e.fInReconn) = some true ∧
  k ∈ s.reconnSet ∧ k ∉ s.newSet

theorem reconnLocked_mapset {s : AState} {k : Key} (h : ReconnLocked s k)
    (k2 : Key) (e2 : CPAddrM) (hf : k2 = k → e2.fInReconn = true) :
    ReconnLocked { s with addrMap := mset s.addrMap k2 e2 } k := by
  obtain ⟨h1, h2, h3⟩ := h
  by_cases hk : k2 = k
  · subst hk
    exact ⟨by simp [mlookup_mset_self, hf rfl], h2, h3⟩
  · have : k ≠ k2 := fun hc => hk hc.symm
    exact ⟨by rw [mlookup_mset_ne _ _ this]; exact h1, h2, h3⟩

theorem good_reconnLocked {s : AState} {k : Key} (h : ReconnLocked s k)
    (addr : CServiceM) (t : Int) : ReconnLocked (Good_ s addr t) k := by
  cases hl : Find s addr.toKey with
  | none => simpa [Good_, hl] using h
  | some info =>
    by_cases hne : info.addr.svc.toKey ≠ addr.toKey
    · simpa [Good_, hl, hne] using h
    · have hflag : addr.toKey = k → info.fInReconn = true := by
        intro hk
        subst hk
        have := h.1
        rw [show mlookup s.addrMap addr.toKey = some info from hl] at this
        simpa using this
      by_cases hr : info.fInReconn = true
      · have hlock := reconnLocked_mapset h addr.toKey
          { info with
            nLastSuccess := t
            nLastTry := t
            nAttempts := 0
            nSuccesses := info.nSuccesses + 1 } (fun _ => hr)
        simpa [Good_, hl, hne, hr] using hlock
      · have hkne : addr.toKey ≠ k := fun hc => hr (hflag hc)
        have hlock := reconnLocked_mapset h addr.toKey
          { info with
            nLastSuccess := t
            nLastTry := t
            nAttempts := 0
            nSuccesses := info.nSuccesses + 1
            fInReconn := true } (fun hc => absurd hc hkne)
        obtain ⟨g1, g2, g3⟩ := hlock
        have hb : info.fInReconn = false := by
          cases hbv : info.fInReconn with
          | false => rfl
          | true => exact absurd hbv hr
        refine ?_
        simp only [Good_, hl, hne, ite_false, hb, Bool.false_eq_true]
        exact ⟨g1, mem_sinsert.mpr (Or.inr g2), fun hc => g3 (serase_subset hc)⟩

theorem attempt_reconnLocked {s : AState} {k : Key} (h : ReconnLocked s k)
    (addr : CServiceM) (cf : Bool) (t : Int) : ReconnLocked (Attempt_ s addr cf t) k := by
  cases hl : Find s addr.toKey with
  | none => simpa [Attempt_, hl] using h
  | some info =>
    by_cases hne : info.addr.svc.toKey ≠ addr.toKey
    · simpa [Attempt_, hl, hne] using h
    · have hflag : addr.toKey = k → info.fInReconn = true := by
        intro hk
        subst hk
        have := h.1
        rw [show mlookup s.addrMap addr.toKey = some info from hl] at this
        simpa using this
      have hlock := reconnLocked_mapset h addr.toKey
        { info with
          nLastTry := t
          nAttempts := if cf then info.nAttempts + 1 else info.nAttempts }
        (fun hc => hflag hc)
      simpa [Attempt_, hl, hne] using hlock

theorem connected_reconnLocked {s : AState} {k : Key} (h : ReconnLocked s k)
    (addr : CServiceM) (t : Int) : ReconnLocked (Connected_ s addr t) k := by
  cases hl : Find s addr.toKey with
  | none => simpa [Connected_, hl] using h
  | some info =>
    by_cases hne : info.addr.svc.toKey ≠ addr.toKey
    · simpa [Connected_, hl, hne] using h
    · have hflag : addr.toKey = k → info.fInReconn = true := by
        intro hk
        subst hk
        have := h.1
        rw [show mlookup s.addrMap addr.toKey = some info from hl] at this
        simpa using this
      have hlock := reconnLocked_mapset h addr.toKey
        { info with addr := { info.addr with nTime := t.toNat } }
        (fun hc => hflag hc)
      by_cases ht : (1200 : Int) < t - (info.addr.nTime : Int)
      · simpa [Connected_, hl, hne, ht] using hlock
      · simpa [Connected_, hl, hne, ht] using h

theorem setservices_reconnLocked {s : AState} {k : Key} (h : ReconnLocked s k)
    (addr : CServiceM) (sv : Nat) : ReconnLocked (SetServices_ s addr sv) k := by
  cases hl : Find s addr.toKey with
  | none => simpa [SetServices_, hl] using h
  | some info =>
    by_cases hne : info.addr.svc.toKey ≠ addr.toKey
    · simpa [SetServices_, hl, hne] using h
    · have hflag : addr.toKey = k → info.fInReconn = true := by
        intro hk
        subst hk
        have := h.1
        rw [show mlookup s.addrMap addr.toKey = some info from hl] at this
        simpa using this
      have hlock := reconnLocked_mapset h addr.toKey
        { info with addr := { info.addr with nServices := sv } }
        (fun hc => hflag hc)
      simpa [SetServices_, hl, hne] using hlock

theorem runQ_reconnLocked (qs : List QOp) (s : AState) (k : Key)
    (h : ReconnLocked s k) : ReconnLocked (runQ qs s) k := by
  induction qs generalizing s with
  | nil => exact h
  | cons q rest ih =>
    refine ih (applyQ q s) ?_
    cases q with
    | good a t => exact good_reconnLocked h a t
    | attempt a c t => exact attempt_reconnLocked h a c t
    | connected a t => exact connected_reconnLocked h a t
    | setservices a sv => exact setservices_reconnLocked h a sv

/-- C6: from any state satisfying the table invariant, once a key is in
the reconnect set, no finite sequence of Good, Attempt, Connected and
SetServices calls removes it from that set, puts it into the new set, or
resets its fInReconn flag. -/
theorem c6_reconn_monotone (s : AState) (k : Key) (qs : List QOp)
    (hInv : Inv s) (hk : k ∈ s.reconnSet) :
    k ∈ (runQ qs s).reconnSet ∧ k ∉ (runQ qs s).newSet ∧
    (mlookup (runQ qs s).addrMap k).map (fun e => e.fInReconn) = some true := by
  obtain ⟨h1, h1r, h2, h3, hkc, hnd⟩ := hInv
  obtain ⟨e, he⟩ := mcontains_iff.mp (h2.2.2.2.1 k hk)
  have hmem := mlookup_mem he
  have hflag : e.fInReconn = true := (h3 (k, e) hmem).mpr hk
  have hnew : k ∉ s.newSet := fun hn => h2.2.2.2.2 k hn hk
  have hlock : ReconnLocked s k := ⟨by rw [he]; simpa using hflag, hk, hnew⟩
  obtain ⟨g1, g2, g3⟩ := runQ_reconnLocked qs s k hlock
  exact ⟨g2, g3, g1⟩

/-- C6 witness: the monotone property applied at a concrete two-entry
table under an Attempt on the locked key and a Good on the other key. -/
theorem c6_reconn_monotone_witness :
    (1, 1) ∈ (runQ [QOp.attempt svc11 true 5, QOp.good svc33 6] sTwo).reconnSet ∧
    (1, 1) ∉ (runQ [QOp.attempt svc11 true 5, QOp.good svc33 6] sTwo).newSet ∧
    (mlookup (runQ [QOp.attempt svc11 true 5, QOp.good svc33 6] sTwo).addrMap (1, 1)).map
      (fun e => e.fInReconn) = some true :=
  c6_reconn_monotone sTwo (1, 1) [QOp.attempt svc11 true 5, QOp.good svc33 6]
    (by decide) (by decide)

/-! ### Serialization round trip -/

theorem deser_ser (e : CPAddrM) :
    deserCPAddr (serCPAddr e) = { e with nRandomPos := -1 } := rfl

theorem rt_map_eq (m : AMap) :
    deserMap (serMap m) = m.map (fun kv => (kv.1, deserCPAddr (serCPAddr kv.2))) := by
  unfold deserMap serMap
  rw [List.map_map]
  rfl

theorem keys_roundtrip (m : AMap) :
    (deserMap (serMap m)).map Prod.fst = m.map Prod.fst := by
  rw [rt_map_eq, List.map_map]
  rfl

theorem length_roundtrip (m : AMap) : (deserMap (serMap m)).length = m.length := by
  rw [rt_map_eq]
  simp

theorem mlookup_roundtrip (m : AMap) (k : Key) :
    mlookup (deserMap (serMap m)) k
      = (mlookup m k).map (fun e => deserCPAddr (serCPAddr e)) := by
  induction m with
  | nil => rfl
  | cons kv t ih =>
    obtain ⟨k2, v2⟩ := kv
    by_cases h : k2 = k
    · simp [deserMap, serMap, mlookup, h]
    · simpa [deserMap, serMap, mlookup, h] using ih

/-! ### MakeContainers rebuilds the containers -/

/-- Characterization of the MakeContainers loop over a duplicate-free
entry list whose entries are stored in the state: the map keeps its
length, each processed entry keeps all fields except nRandomPos, keys
outside the list are untouched, and each membership set gains exactly the
canonical keys of the entries with the matching flag. -/
theorem makeGo_spec : ∀ (l : List (Key × CPAddrM)) (s : AState),
    NodupKeys l →
    (∀ kv ∈ l, mlookup s.addrMap kv.1 = some kv.2) →
    (makeGo l s).addrMap.length = s.addrMap.length ∧
    (∀ k, k ∈ (makeGo l s).newSet ↔
      (k ∈ s.newSet ∨ ∃ kv ∈ l, kv.2.addr.svc.toKey = k ∧ kv.2.fInReconn = false)) ∧
    (∀ k, k ∈ (makeGo l s).reconnSet ↔
      (k ∈ s.reconnSet ∨ ∃ kv ∈ l, kv.2.addr.svc.toKey = k ∧ kv.2.fInReconn = true)) ∧
    (∀ kv ∈ l, ∃ p, mlookup (makeGo l s).addrMap kv.1 = some { kv.2 with nRandomPos := p }) ∧
    (∀ k2, k2 ∉ l.map Prod.fst → mlookup (makeGo l s).addrMap k2 = mlookup s.addrMap k2) := by
  intro l
  induction l with
  | nil =>
    intro s _ _
    refine ⟨rfl, by simp [makeGo], by simp [makeGo], by simp, fun k2 _ => rfl⟩
  | cons kv0 rest ih =>
    obtain ⟨k0, a⟩ := kv0
    intro s hnd hl
    have hnd0 : k0 ∉ rest.map Prod.fst ∧ NodupKeys rest := by
      simpa [NodupKeys] using hnd
    have hlk0 : mlookup s.addrMap k0 = some a := hl (k0, a) (List.mem_cons_self ..)
    have hcont0 : mcontains s.addrMap k0 = true := mcontains_iff.mpr ⟨a, hlk0⟩
    by_cases hf : a.fInReconn = true
    · have hstep : makeGo ((k0, a) :: rest) s = makeGo rest
          (AState.mk (mset s.addrMap k0 { a with nRandomPos := (s.vRandom.length : Int) })
            (sinsert s.reconnSet a.addr.svc.toKey) s.newSet (s.vRandom ++ [k0])) := by
        simp only [makeGo, hf, ite_true]
      have hrest : ∀ kv ∈ rest,
          mlookup (AState.mk (mset s.addrMap k0 { a with nRandomPos := (s.vRandom.length : Int) })
            (sinsert s.reconnSet a.addr.svc.toKey) s.newSet (s.vRandom ++ [k0])).addrMap kv.1
            = some kv.2 := by
        intro kv hkv
        have hne : kv.1 ≠ k0 := by
          intro hc
          exact hnd0.1 (hc ▸ List.mem_map.mpr ⟨kv, hkv, rfl⟩)
        show mlookup (mset s.addrMap k0 { a with nRandomPos := (s.vRandom.length : Int) }) kv.1
          = some kv.2
        rw [mlookup_mset_ne _ _ hne]
        exact hl kv (List.mem_cons_of_mem _ hkv)
      obtain ⟨ihlen, ihnew, ihrec, ihent, ihframe⟩ := ih _ hnd0.2 hrest
      refine ⟨?_, ?_, ?_, ?_, ?_⟩
      · rw [hstep, ihlen]
        exact length_mset_of_contains _ hcont0
      · intro k
        rw [hstep, ihnew k]
        constructor
        · rintro (h | ⟨kv, hkv, hp1, hp2⟩)
          · exact Or.inl h
          · exact Or.inr ⟨kv, List.mem_cons_of_mem _ hkv, hp1, hp2⟩
        · rintro (h | ⟨kv, hkv, hp1, hp2⟩)
          · exact Or.inl h
          · rcases List.mem_cons.mp hkv with h2 | h2
            · exfalso
              rw [h2] at hp2
              rw [hf] at hp2
              cases hp2
            · exact Or.inr ⟨kv, h2, hp1, hp2⟩
      · intro k
        rw [hstep, ihrec k]
        constructor
        · rintro (h | ⟨kv, hkv, hp1, hp2⟩)
          · rcases mem_sinsert.mp h with h2 | h2
            · exact Or.inr ⟨(k0, a), List.mem_cons_self .., h2.symm, hf⟩
            · exact Or.inl h2
          · exact Or.inr ⟨kv, List.mem_cons_of_mem _ hkv, hp1, hp2⟩
        · rintro (h | ⟨kv, hkv, hp1, hp2⟩)
          · exact Or.inl (mem_sinsert.mpr (Or.inr h))
          · rcases List.mem_cons.mp hkv with h2 | h2
            · refine Or.inl (mem_sinsert.mpr (Or.inl ?_))
              rw [h2] at hp1
              exact hp1.symm
            · exact Or.inr ⟨kv, h2, hp1, hp2⟩
      · intro kv hkv
        rcases List.mem_cons.mp hkv with h2 | h2
        · subst h2
          refine ⟨(s.vRandom.length : Int), ?_⟩
          rw [hstep, ihframe k0 hnd0.1]
          exact mlookup_mset_self ..
        · rw [hstep]
          exact ihent kv h2
      · intro k2 hk2
        have hk2a : ¬(k2 = k0 ∨ k2 ∈ rest.map Prod.fst) := by
          intro hc
          apply hk2
          simp only [List.map_cons, List.mem_cons]
          exact hc
        have hne : k2 ≠ k0 := fun hc => hk2a (Or.inl hc)
        have hk2r : k2 ∉ rest.map Prod.fst := fun hc => hk2a (Or.inr hc)
        rw [hstep, ihframe k2 hk2r]
        show mlookup (mset s.addrMap k0 { a with nRandomPos := (s.vRandom.length : Int) }) k2
          = mlookup s.addrMap k2
        exact mlookup_mset_ne _ _ hne
    · have hf2 : a.fInReconn = false := by
        cases hbv : a.fInReconn
        · rfl
        · exact absurd hbv hf
      have hstep : makeGo ((k0, a) :: rest) s = makeGo rest
          (AState.mk (mset s.addrMap k0 { a with nRandomPos := (s.vRandom.length : Int) })
            s.reconnSet (sinsert s.newSet a.addr.svc.toKey) (s.vRandom ++ [k0])) := by
        simp only [makeGo, hf2, Bool.false_eq_true, ite_false]
      have hrest : ∀ kv ∈ rest,
          mlookup (AState.mk (mset s.addrMap k0 { a with nRandomPos := (s.vRandom.length : Int) })
            s.reconnSet (sinsert s.newSet a.addr.svc.toKey) (s.vRandom ++ [k0])).addrMap kv.1
            = some kv.2 := by
        intro kv hkv
        have hne : kv.1 ≠ k0 := by
          intro hc
          exact hnd0.1 (hc ▸ List.mem_map.mpr ⟨kv, hkv, rfl⟩)
        show mlookup (mset s.addrMap k0 { a with nRandomPos := (s.vRandom.length : Int) }) kv.1
          = some kv.2
        rw [mlookup_mset_ne _ _ hne]
        exact hl kv (List.mem_cons_of_mem _ hkv)
      obtain ⟨ihlen, ihnew, ihrec, ihent, ihframe⟩ := ih _ hnd0.2 hrest
      refine ⟨?_, ?_, ?_, ?_, ?_⟩
      · rw [hstep, ihlen]
        exact length_mset_of_contains _ hcont0
      · intro k
        rw [hstep, ihnew k]
        constructor
        · rintro (h | ⟨kv, hkv, hp1, hp2⟩)
          · rcases mem_sinsert.mp h with h2 | h2
            · exact Or.inr ⟨(k0, a), List.mem_cons_self .., h2.symm, hf2⟩
            · exact Or.inl h2
          · exact Or.inr ⟨kv, List.mem_cons_of_mem _ hkv, hp1, hp2⟩
        · rintro (h | ⟨kv, hkv, hp1, hp2⟩)
          · exact Or.inl (mem_sinsert.mpr (Or.inr h))
          · rcases List.mem_cons.mp hkv with h2 | h2
            · refine Or.inl (mem_sinsert.mpr (Or.inl ?_))
              rw [h2] at hp1
              exact hp1.symm
            · exact Or.inr ⟨kv, h2, hp1, hp2⟩
      · intro k
        rw [hstep, ihrec k]
        constructor
        · rintro (h | ⟨kv, hkv, hp1, hp2⟩)
          · exact Or.inl h
          · exact Or.inr ⟨kv, List.mem_cons_of_mem _ hkv, hp1, hp2⟩
        · rintro (h | ⟨kv, hkv, hp1, hp2⟩)
          · exact Or.inl h
          · rcases List.mem_cons.mp hkv with h2 | h2
            · exfalso
              rw [h2] at hp2
              rw [hf2] at hp2
              cases hp2
            · exact Or.inr ⟨kv, h2, hp1, hp2⟩
      · intro kv hkv
        rcases List.mem_cons.mp hkv with h2 | h2
        · subst h2
          refine ⟨(s.vRandom.length : Int), ?_⟩
          rw [hstep, ihframe k0 hnd0.1]
          exact mlookup_mset_self ..
        · rw [hstep]
          exact ihent kv h2
      · intro k2 hk2
        have hk2a : ¬(k2 = k0 ∨ k2 ∈ rest.map Prod.fst) := by
          intro hc
          apply hk2
          simp only [List.map_cons, List.mem_cons]
          exact hc
        have hne : k2 ≠ k0 := fun hc => hk2a (Or.inl hc)
        have hk2r : k2 ∉ rest.map Prod.fst := fun hc => hk2a (Or.inr hc)
        rw [hstep, ihframe k2 hk2r]
        show mlookup (mset s.addrMap k0 { a with nRandomPos := (s.vRandom.length : Int) }) k2
          = mlookup s.addrMap k2
        exact mlookup_mset_ne _ _ hne

theorem keysOf_filterMap (ks : KSet) (m : AMap)
    (h : ∀ k ∈ ks, ∃ e, mlookup m k = some e ∧ e.addr.svc.toKey = k) :
    keysOfEntries (ks.filterMap (fun k2 => mlookup m k2)) = ks := by
  induction ks with
  | nil => rfl
  | cons k rest ih =>
    obtain ⟨e, he, hk⟩ := h k (List.mem_cons_self ..)
    have hrest := ih (fun k2 h2 => h k2 (List.mem_cons_of_mem _ h2))
    simp only [List.filterMap_cons, he, keysOfEntries, List.map_cons]
    rw [hk]
    unfold keysOfEntries at hrest
    rw [hrest]

theorem snapshot_keys_new {s : AState}
    (h : ∀ k ∈ s.newSet, ∃ e, mlookup s.addrMap k = some e ∧ e.fInReconn = false ∧
      e.addr.svc.toKey = k) :
    keysOfEntries (GetNew s).1 = s.newSet := by
  have hflag : ∀ k ∈ s.newSet, (mlookup s.addrMap k).map (fun e => e.fInReconn) = some false := by
    intro k hk
    obtain ⟨e, he, hfe, _⟩ := h k hk
    rw [he]
    simp [hfe]
  have hspec := getNewGo_spec s.newSet s [] hflag
  show keysOfEntries (getNewGo s.newSet s []).1 = s.newSet
  rw [hspec.2]
  have h2 := keysOf_filterMap s.newSet s.addrMap (by
    intro k hk
    obtain ⟨e, he, _, htk⟩ := h k hk
    exact ⟨e, he, htk⟩)
  simpa using h2

theorem snapshot_keys_rec {s : AState}
    (h : ∀ k ∈ s.reconnSet, ∃ e, mlookup s.addrMap k = some e ∧ e.fInReconn = true ∧
      e.addr.svc.toKey = k) :
    keysOfEntries (GetReconns s).1 = s.reconnSet := by
  have hflag : ∀ k ∈ s.reconnSet,
      (mlookup s.addrMap k).map (fun e => e.fInReconn) = some true := by
    intro k hk
    obtain ⟨e, he, hfe, _⟩ := h k hk
    rw [he]
    simp [hfe]
  have hspec := getReconnsGo_spec s.reconnSet s [] hflag
  show keysOfEntries (getReconnsGo s.reconnSet s []).1 = s.reconnSet
  rw [hspec.2]
  have h2 := keysOf_filterMap s.reconnSet s.addrMap (by
    intro k hk
    obtain ⟨e, he, _, htk⟩ := h k hk
    exact ⟨e, he, htk⟩)
  simpa using h2

/-! ### Claim C9 -/

/-- C9: serializing a table, deserializing it into a freshly constructed
manager and calling MakeContainers yields a table of the same size whose
GetNew and GetReconns snapshots partition the entries (by their canonical
keys) exactly as before serialization. -/
theorem c9_roundtrip (s : AState) (hInv : Inv s) :
    sizeM (roundtripState s) = sizeM s ∧
    (∀ k, k ∈ keysOfEntries (GetNew (roundtripState s)).1 ↔
      k ∈ keysOfEntries (GetNew s).1) ∧
    (∀ k, k ∈ keysOfEntries (GetReconns (roundtripState s)).1 ↔
      k ∈ keysOfEntries (GetReconns s).1) := by
  have hndrt : NodupKeys (deserMap (serMap s.addrMap)) := by
    unfold NodupKeys
    rw [keys_roundtrip]
    exact hInv.2.2.2.2.2.1
  have hlook0 : ∀ kv ∈ deserMap (serMap s.addrMap),
      mlookup (AState.mk (deserMap (serMap s.addrMap)) [] [] []).addrMap kv.1 = some kv.2 :=
    fun kv hkv => mem_mlookup hndrt hkv
  obtain ⟨hlen, hnew, hrec, hent, _⟩ :=
    makeGo_spec (deserMap (serMap s.addrMap)) (AState.mk (deserMap (serMap s.addrMap)) [] [] [])
      hndrt hlook0
  have hrtmem : ∀ kv ∈ deserMap (serMap s.addrMap),
      ∃ e0, mlookup s.addrMap kv.1 = some e0 ∧ kv.2 = deserCPAddr (serCPAddr e0) := by
    intro kv hkv
    have hlkv := mem_mlookup hndrt hkv
    rw [mlookup_roundtrip] at hlkv
    cases hl : mlookup s.addrMap kv.1 with
    | none =>
      rw [hl] at hlkv
      simp at hlkv
    | some e0 =>
      rw [hl] at hlkv
      simp only [Option.map_some'] at hlkv
      refine ⟨e0, rfl, ?_⟩
      injection hlkv with h2
      exact h2.symm
  have hKCrt : ∀ kv ∈ deserMap (serMap s.addrMap), kv.2.addr.svc.toKey = kv.1 := by
    intro kv hkv
    obtain ⟨e0, hl, hkv2⟩ := hrtmem kv hkv
    rw [hkv2]
    exact hInv.2.2.2.2.1 (kv.1, e0) (mlookup_mem hl)
  have hmemS : ∀ (fl : Bool) (k : Key),
      (∃ kv ∈ deserMap (serMap s.addrMap), kv.2.addr.svc.toKey = k ∧ kv.2.fInReconn = fl)
        ↔ (∃ e0, mlookup s.addrMap k = some e0 ∧ e0.fInReconn = fl) := by
    intro fl k
    constructor
    · rintro ⟨kv, hkv, htk, hfl⟩
      obtain ⟨e0, hl, hkv2⟩ := hrtmem kv hkv
      have hk1 : kv.1 = k := by
        rw [← htk]
        exact (hKCrt kv hkv).symm
      refine ⟨e0, by rw [← hk1]; exact hl, ?_⟩
      rw [hkv2] at hfl
      exact hfl
    · rintro ⟨e0, hl, hfl⟩
      have hrtl : mlookup (deserMap (serMap s.addrMap)) k
          = some (deserCPAddr (serCPAddr e0)) := by
        rw [mlookup_roundtrip, hl]
        rfl
      exact ⟨(k, deserCPAddr (serCPAddr e0)), mlookup_mem hrtl,
        hInv.2.2.2.2.1 (k, e0) (mlookup_mem hl), hfl⟩
  have hSnew : ∀ k, (∃ e0, mlookup s.addrMap k = some e0 ∧ e0.fInReconn = false)
      ↔ k ∈ s.newSet := by
    intro k
    constructor
    · rintro ⟨e0, hl, hfl⟩
      rcases (hInv.2.2.1.2.1 (k, e0) (mlookup_mem hl)).2 with h | h
      · exact h
      · exfalso
        have hc := (hInv.2.2.2.1 (k, e0) (mlookup_mem hl)).mpr h
        rw [hfl] at hc
        cases hc
    · intro hk
      obtain ⟨e0, hl⟩ := mcontains_iff.mp (hInv.2.2.1.2.2.1 k hk)
      refine ⟨e0, hl, ?_⟩
      cases hb : e0.fInReconn
      · rfl
      · exact absurd ((hInv.2.2.2.1 (k, e0) (mlookup_mem hl)).mp hb)
          (hInv.2.2.1.2.2.2.2 k hk)
  have hSrec : ∀ k, (∃ e0, mlookup s.addrMap k = some e0 ∧ e0.fInReconn = true)
      ↔ k ∈ s.reconnSet := by
    intro k
    constructor
    · rintro ⟨e0, hl, hfl⟩
      exact (hInv.2.2.2.1 (k, e0) (mlookup_mem hl)).mp hfl
    · intro hk
      obtain ⟨e0, hl⟩ := mcontains_iff.mp (hInv.2.2.1.2.2.2.1 k hk)
      exact ⟨e0, hl, (hInv.2.2.2.1 (k, e0) (mlookup_mem hl)).mpr hk⟩
  have hnewOK : ∀ k ∈ (roundtripState s).newSet,
      ∃ e, mlookup (roundtripState s).addrMap k = some e ∧ e.fInReconn = false ∧
        e.addr.svc.toKey = k := by
    intro k hk
    rcases (hnew k).mp hk with h | ⟨kv, hkv, htk, hfl⟩
    · simp at h
    · have hk1 : kv.1 = k := by
        rw [← htk]
        exact (hKCrt kv hkv).symm
      obtain ⟨p, hp⟩ := hent kv hkv
      refine ⟨{ kv.2 with nRandomPos := p }, by rw [← hk1]; exact hp, hfl, ?_⟩
      rw [← htk]
  have hrecOK : ∀ k ∈ (roundtripState s).reconnSet,
      ∃ e, mlookup (roundtripState s).addrMap k = some e ∧ e.fInReconn = true ∧
        e.addr.svc.toKey = k := by
    intro k hk
    rcases (hrec k).mp hk with h | ⟨kv, hkv, htk, hfl⟩
    · simp at h
    · have hk1 : kv.1 = k := by
        rw [← htk]
        exact (hKCrt kv hkv).symm
      obtain ⟨p, hp⟩ := hent kv hkv
      refine ⟨{ kv.2 with nRandomPos := p }, by rw [← hk1]; exact hp, hfl, ?_⟩
      rw [← htk]
  have hOKnewS : ∀ k ∈ s.newSet,
      ∃ e, mlookup s.addrMap k = some e ∧ e.fInReconn = false ∧ e.addr.svc.toKey = k := by
    intro k hk
    obtain ⟨e0, hl, hfl⟩ := (hSnew k).mpr hk
    exact ⟨e0, hl, hfl, hInv.2.2.2.2.1 (k, e0) (mlookup_mem hl)⟩
  have hOKrecS : ∀ k ∈ s.reconnSet,
      ∃ e, mlookup s.addrMap k = some e ∧ e.fInReconn = true ∧ e.addr.svc.toKey = k := by
    intro k hk
    obtain ⟨e0, hl, hfl⟩ := (hSrec k).mpr hk
    exact ⟨e0, hl, hfl, hInv.2.2.2.2.1 (k, e0) (mlookup_mem hl)⟩
  refine ⟨?_, ?_, ?_⟩
  · show (roundtripState s).addrMap.length = s.addrMap.length
    rw [show (roundtripState s).addrMap.length
        = (deserMap (serMap s.addrMap)).length from hlen, length_roundtrip]
  · intro k
    rw [snapshot_keys_new hnewOK, snapshot_keys_new hOKnewS]
    constructor
    · intro hk
      rcases (hnew k).mp hk with h | h
      · simp at h
      · exact (hSnew k).mp ((hmemS false k).mp h)
    · intro hk
      refine (hnew k).mpr (Or.inr ?_)
      exact (hmemS false k).mpr ((hSnew k).mpr hk)
  · intro k
    rw [snapshot_keys_rec hrecOK, snapshot_keys_rec hOKrecS]
    constructor
    · intro hk
      rcases (hrec k).mp hk with h | h
      · simp at h
      · exact (hSrec k).mp ((hmemS true k).mp h)
    · intro hk
      refine (hrec k).mpr (Or.inr ?_)
      exact (hmemS true k).mpr ((hSrec k).mpr hk)

/-- C9 witness: the round trip at the concrete two-entry table. -/
theorem c9_roundtrip_witness :
    sizeM (roundtripState sTwo) = sizeM sTwo ∧
    (∀ k, k ∈ keysOfEntries (GetNew (roundtripState sTwo)).1 ↔
      k ∈ keysOfEntries (GetNew sTwo).1) ∧
    (∀ k, k ∈ keysOfEntries (GetReconns (roundtripState sTwo)).1 ↔
      k ∈ keysOfEntries (GetReconns sTwo).1) :=
  c9_roundtrip sTwo (by decide)

/-- C7 witness: both parts applied at key (1, 1). -/
theorem c7_add_idempotent_witness :
    ((Add_ emptyState addr11 srcA 0 0).1 = true ∧
     (Add_ (Add_ emptyState addr11 srcA 0 0).2 addr11 srcA 0 0).1 = false ∧
     (mlookup (Add_ (Add_ emptyState addr11 srcA 0 0).2 addr11 srcA 0 0).2.addrMap
        addr11.svc.toKey).map (fun e => e.addr.nServices)
        = some (Nat.lor addr11.nServices addr11.nServices)) ∧
    ((Add_ sTime addrDup srcA 0 0).1 = false ∧
     (mlookup (Add_ sTime addrDup srcA 0 0).2.addrMap addrDup.svc.toKey).map
        (fun e2 => e2.addr.nServices) = some (Nat.lor entryT.addr.nServices addrDup.nServices)) :=
  ⟨c7_add_idempotent.1 addr11 srcA 0 0 0 0 (by decide),
   c7_add_idempotent.2 sTime addrDup srcA 0 0 entryT (by decide) (by decide) (by decide)⟩

end PAddrMan
